import Mathlib

/-! # Base64 and TLV codecs of the distributed hardware framework

Shallow embedding of `common/utils/src/dh_base64_utils.cpp` and
`common/utils/src/dh_tlv_utils.cpp`.

Conventions of the embedding.

* `uint8_t` is `Fin 256`, `uint16_t` is `Fin 65536`; a `std::vector<uint8_t>` is a
  `List Byte`, a `std::string` is a `List Char`.
* `uint32_t` and `size_t` values are natural numbers. Every narrowing conversion of the
  source is written out: `static_cast<uint8_t>` is `toByte` (reduction modulo 256),
  the assignment to a `uint16_t` is `toU16`, `static_cast<uint32_t>` and `uint32_t`
  left shifts are reductions modulo `2 ^ 32`, and the `size_t` sum `pos + length`, whose
  second operand comes from the wire, is reduced modulo `2 ^ 64` (an LP64 target).
  Sums of sizes of buffers that are held in memory together are below `2 ^ 64` and are
  plain sums.
* A `while`/`for` loop is a function by recursion on a fuel argument that carries the loop
  variables; it answers `none` only when the fuel is used up while the loop condition
  still holds. The entry points pass a fuel that is shown to be enough.
* An output parameter (`std::vector<TLVItem>& tlvList`) is an argument holding the prior
  content and a component of the result holding the content on return.
-/

namespace OHOS.DistributedHardware

/-- An octet, `uint8_t`. -/
abbrev Byte := Fin 256

/-- Conversion `static_cast<uint8_t>(n)`. -/
def toByte (n : Nat) : Byte := ⟨n % 256, Nat.mod_lt n (by decide)⟩

/-- Conversion of an integer expression to `uint16_t`. -/
def toU16 (n : Nat) : Fin 65536 := ⟨n % 65536, Nat.mod_lt n (by decide)⟩

/-- Number of values of `uint32_t`. -/
def U32_MOD : Nat := 2 ^ 32

/-- Number of values of `size_t`. -/
def SIZE_MOD : Nat := 2 ^ 64

/-! ## Base64 (`dh_base64_utils.cpp`) -/

namespace DHBase64Utils

/-- The table `BASE64_CHARS` (line 25). -/
def BASE64_CHARS : List Char :=
  "ABCDEFGHIJKLMNOPQRSTUVWXYZabcdefghijklmnopqrstuvwxyz0123456789+/".toList

/-- The read `BASE64_CHARS[idx]`; the source only uses indices masked with `0x3F`. -/
def base64Char (idx : Nat) : Char := BASE64_CHARS.getD idx (Char.ofNat 0)

/-- Function `CharToValue` (lines 29-47): the index of a character in the table, `0xFF`
for any other character (`'='` included). -/
def CharToValue (c : Char) : Nat :=
  if 'A' ≤ c ∧ c ≤ 'Z' then (c.toNat - 'A'.toNat) % 256
  else if 'a' ≤ c ∧ c ≤ 'z' then (c.toNat - 'a'.toNat + 26) % 256
  else if '0' ≤ c ∧ c ≤ '9' then (c.toNat - '0'.toNat + 52) % 256
  else if c = '+' then 62
  else if c = '/' then 63
  else 0xFF

/-- One pass through the body of the `while` loop of `Encode` (lines 63-92), started at
index `i`: the new index and the characters pushed to `result`. -/
def EncodeBody (data : List Byte) (i : Nat) : Nat × List Char :=
  let length := data.length
  let triple := ((data.getD i 0).val <<< 16) % U32_MOD
  let i := i + 1
  let triple := if i < length then triple ||| (((data.getD i 0).val <<< 8) % U32_MOD) else triple
  let i := if i < length then i + 1 else i
  let triple := if i < length then triple ||| (data.getD i 0).val else triple
  let i := if i < length then i + 1 else i
  let out := [base64Char ((triple >>> 18) &&& 0x3F), base64Char ((triple >>> 12) &&& 0x3F)]
  let out := if i > length then out ++ ['='] else out ++ [base64Char ((triple >>> 6) &&& 0x3F)]
  let out :=
    if i > length + 1 then out ++ ['=', '=']
    else if i > length then out ++ ['=']
    else out ++ [base64Char (triple &&& 0x3F)]
  (i, out)

/-- The loop `while (i < length)` of `Encode` (line 62). -/
def EncodeLoop (data : List Byte) : Nat → Nat → List Char → Option (List Char)
  | 0, i, result => if i < data.length then none else some result
  | fuel + 1, i, result =>
    if i < data.length then
      EncodeLoop data fuel (EncodeBody data i).1 (result ++ (EncodeBody data i).2)
    else some result

/-- Function `DHBase64Utils::Encode` (lines 50-96). -/
def Encode (data : List Byte) : Option (List Char) :=
  if data.isEmpty then some []
  else EncodeLoop data data.length 0 []

/-- One pass through the body of the inner loop `for (j = 0; j < 4; ++j)` of `Decode`
(lines 118-123): `none` is the early `return {}` on an invalid character, else the new
value of `quad`. -/
def DecodeChar (encoded : List Char) (i j quad : Nat) : Option Nat :=
  let val := CharToValue (encoded.getD (i + j) (Char.ofNat 0))
  if val = 0xFF ∧ encoded.getD (i + j) (Char.ofNat 0) ≠ '=' then none
  else some (((quad <<< 6) % U32_MOD) ||| val)

/-- The inner loop of `Decode` (lines 115-124), its four passes `j = 0, 1, 2, 3` written
out, started with `quad = 0`. -/
def DecodeQuad (encoded : List Char) (i : Nat) : Option Nat :=
  (DecodeChar encoded i 0 0).bind fun quad =>
  (DecodeChar encoded i 1 quad).bind fun quad =>
  (DecodeChar encoded i 2 quad).bind fun quad =>
  DecodeChar encoded i 3 quad

/-- The loop `for (i = 0; i < length; i += 4)` of `Decode` (line 114). The inner result
`none` of `DecodeQuad` is the early `return {}`. -/
def DecodeLoop (encoded : List Char) : Nat → Nat → List Byte → Option (List Byte)
  | 0, i, result => if i < encoded.length then none else some result
  | fuel + 1, i, result =>
    if i < encoded.length then
      match DecodeQuad encoded i with
      | none => some []
      | some quad =>
        let result := result ++ [toByte ((quad >>> 16) &&& 0xFF)]
        let result :=
          if encoded.getD (i + 2) (Char.ofNat 0) ≠ '=' then
            result ++ [toByte ((quad >>> 8) &&& 0xFF)]
          else result
        let result :=
          if encoded.getD (i + 3) (Char.ofNat 0) ≠ '=' then
            result ++ [toByte (quad &&& 0xFF)]
          else result
        DecodeLoop encoded fuel (i + 4) result
    else some result

/-- Function `DHBase64Utils::Decode` (lines 98-138). -/
def Decode (encoded : List Char) : Option (List Byte) :=
  if encoded.isEmpty then some []
  else if encoded.length % 4 ≠ 0 then some []
  else DecodeLoop encoded encoded.length 0 []

/-- The test applied to one character by the loop of `IsValid` (lines 155-168). -/
def IsValidChar (c : Char) : Bool :=
  if 'A' ≤ c ∧ c ≤ 'Z' then true
  else if 'a' ≤ c ∧ c ≤ 'z' then true
  else if '0' ≤ c ∧ c ≤ '9' then true
  else if c = '+' ∨ c = '/' ∨ c = '=' then true
  else false

/-- Function `DHBase64Utils::IsValid` (lines 140-172); the range-`for` is a recursion on
the characters, left at the first invalid one. -/
def IsValid (encoded : List Char) : Bool :=
  if encoded.isEmpty then false
  else if encoded.length % 4 ≠ 0 then false
  else encoded.all IsValidChar

end DHBase64Utils

/-! ## TLV (`dh_tlv_utils.cpp`) -/

namespace DHTLVUtils

/-- Constant `TYPE_BYTES` (line 24). -/
def TYPE_BYTES : Nat := 2
/-- Constant `LENGTH_BYTES` (line 25). -/
def LENGTH_BYTES : Nat := 4
/-- Constant `HEADER_BYTES` (line 26). -/
def HEADER_BYTES : Nat := TYPE_BYTES + LENGTH_BYTES
/-- Constant `MAX_TLV_VALUE_LENGTH` (line 29). -/
def MAX_TLV_VALUE_LENGTH : Nat := 64 * 1024
/-- Constant `MAX_TLV_DATA_LENGTH` (line 32). -/
def MAX_TLV_DATA_LENGTH : Nat := 128 * 1024
/-- Constant `ERR_TLV_INVALID_LENGTH` (line 35). -/
def ERR_TLV_INVALID_LENGTH : Int := -10001
/-- Constant `ERR_TLV_VALUE_TOO_LARGE` (line 36). -/
def ERR_TLV_VALUE_TOO_LARGE : Int := -10002
/-- Constant `ERR_TLV_DATA_EXCEEDED` (line 37). -/
def ERR_TLV_DATA_EXCEEDED : Int := -10003

/-- The record `DHTLVUtils::TLVItem` (`dh_tlv_utils.h`, lines 39-46). -/
structure TLVItem where
  type : Fin 65536
  value : List Byte
  deriving DecidableEq, Repr

/-- Function `DHTLVUtils::GetEncodedLength` (lines 144-151). The `size_t` sum is exact:
the values it measures are held in memory together, so their sizes add up to less than
`2 ^ 64`. -/
def GetEncodedLength (tlvList : List TLVItem) : Nat :=
  tlvList.foldl (fun totalLen item => totalLen + (HEADER_BYTES + item.value.length)) 0

/-- One pass through the body of the loop of `EncodeToBinary` (lines 60-72): `result`
after the bytes of `item` are appended. -/
def EncodeItem (result : List Byte) (item : TLVItem) : List Byte :=
  let result := result ++ [toByte ((item.type.val >>> 8) &&& 0xFF)]
  let result := result ++ [toByte (item.type.val &&& 0xFF)]
  let length := item.value.length % U32_MOD
  let result := result ++ [toByte ((length >>> 24) &&& 0xFF)]
  let result := result ++ [toByte ((length >>> 16) &&& 0xFF)]
  let result := result ++ [toByte ((length >>> 8) &&& 0xFF)]
  let result := result ++ [toByte (length &&& 0xFF)]
  result ++ item.value

/-- Function `DHTLVUtils::EncodeToBinary` (lines 47-76). -/
def EncodeToBinary (tlvList : List TLVItem) : List Byte :=
  let totalSize := GetEncodedLength tlvList
  if totalSize = 0 then []
  else tlvList.foldl EncodeItem []

/-- Function `DHTLVUtils::EncodeSingleTLV` (lines 40-45). -/
def EncodeSingleTLV (type : Fin 65536) (value : List Byte) : List Byte :=
  EncodeToBinary [⟨type, value⟩]

/-- The call `tlvList.clear()` (lines 81 and 155): the content of the list after it. -/
def clear (_tlvList : List TLVItem) : List TLVItem := []

/-- Function `DHTLVUtils::ClearTLVList` (lines 153-156). -/
def ClearTLVList (tlvList : List TLVItem) : List TLVItem := clear tlvList

/-- The loop `while (pos + HEADER_BYTES <= totalSize)` of `DecodeFromBinary`
(lines 94-127) with its loop variables `pos` and `tlvList`, and the `return 0` that
follows it: the status and the content of `tlvList` on return. -/
def DecodeLoop (binary : List Byte) : Nat → Nat → List TLVItem → Option (Int × List TLVItem)
  | 0, pos, tlvList =>
    if pos + HEADER_BYTES ≤ binary.length then none else some (0, tlvList)
  | fuel + 1, pos, tlvList =>
    let totalSize := binary.length
    if pos + HEADER_BYTES ≤ totalSize then
      let type := toU16 (((binary.getD pos 0).val <<< 8) ||| (binary.getD (pos + 1) 0).val)
      let pos := pos + TYPE_BYTES
      let length :=
        (((binary.getD pos 0).val <<< 24) % U32_MOD) |||
        (((binary.getD (pos + 1) 0).val <<< 16) % U32_MOD) |||
        (((binary.getD (pos + 2) 0).val <<< 8) % U32_MOD) |||
        (binary.getD (pos + 3) 0).val
      let pos := pos + LENGTH_BYTES
      if (pos + length) % SIZE_MOD > totalSize then some (ERR_TLV_INVALID_LENGTH, tlvList)
      else if length > MAX_TLV_VALUE_LENGTH then some (ERR_TLV_VALUE_TOO_LARGE, tlvList)
      else
        let value := if length > 0 then (binary.drop pos).take length else []
        let pos := if length > 0 then pos + length else pos
        DecodeLoop binary fuel pos (tlvList ++ [⟨type, value⟩])
    else some (0, tlvList)

/-- Function `DHTLVUtils::DecodeFromBinary` (lines 78-130). The argument `tlvList` is
the content of the output list at the call; the result is the returned status and the
content of the output list on return. -/
def DecodeFromBinary (binary : List Byte) (tlvList : List TLVItem) :
    Option (Int × List TLVItem) :=
  let tlvList := clear tlvList
  if binary.isEmpty then some (0, tlvList)
  else if binary.length > MAX_TLV_DATA_LENGTH then some (ERR_TLV_DATA_EXCEEDED, tlvList)
  else DecodeLoop binary binary.length 0 tlvList

/-- Function `DHTLVUtils::FindTLVByType` (lines 132-142). The argument `value` is the
content of the output buffer at the call; the result is the returned flag and the
content of the output buffer on return. -/
def FindTLVByType : List TLVItem → Fin 65536 → List Byte → Bool × List Byte
  | [], _, value => (false, value)
  | item :: rest, type, value =>
    if item.type = type then (true, item.value) else FindTLVByType rest type value

end DHTLVUtils

/-! ## Closed forms used by the statements -/

namespace DHBase64Utils

/-- The value of `triple` after the three bytes `b0`, `b1`, `b2` are merged (lines 63-74). -/
def encTriple (b0 b1 b2 : Byte) : Nat :=
  ((b0.val <<< 16) % U32_MOD) ||| ((b1.val <<< 8) % U32_MOD) ||| b2.val

/-- The four table characters selected by the 6-bit fields of `triple` (lines 76, 77, 82
and 91). -/
def encQuad (triple : Nat) : List Char :=
  [base64Char ((triple >>> 18) &&& 0x3F), base64Char ((triple >>> 12) &&& 0x3F),
   base64Char ((triple >>> 6) &&& 0x3F), base64Char (triple &&& 0x3F)]

/-- What the loop of `Encode` writes, group by group: a last group of one or two bytes
is completed with zero bytes and written as four table characters. -/
def encGroups : List Byte → List Char
  | b0 :: b1 :: b2 :: rest => encQuad (encTriple b0 b1 b2) ++ encGroups rest
  | [b0, b1] => encQuad (encTriple b0 b1 0)
  | [b0] => encQuad (encTriple b0 0 0)
  | [] => []

/-- The 64-character alphabet as the specification spells it. -/
def specAlphabet : List Char :=
  "ABCDEFGHIJKLMNOPQRSTUVWXYZabcdefghijklmnopqrstuvwxyz0123456789+/".toList

/-- The specification of `Encode` on whole groups: for each group `(b0, b1, b2)`, in
order, the alphabet characters at the four indices
`b0>>2`, `((b0&3)<<4)|(b1>>4)`, `((b1&15)<<2)|(b2>>6)`, `b2&63`. -/
def specFullGroups : List Byte → List Char
  | b0 :: b1 :: b2 :: rest =>
    [specAlphabet.getD (b0.val >>> 2) (Char.ofNat 0),
     specAlphabet.getD (((b0.val &&& 3) <<< 4) ||| (b1.val >>> 4)) (Char.ofNat 0),
     specAlphabet.getD (((b1.val &&& 15) <<< 2) ||| (b2.val >>> 6)) (Char.ofNat 0),
     specAlphabet.getD (b2.val &&& 63) (Char.ofNat 0)] ++ specFullGroups rest
  | _ => []

/-- The new value of `quad` after one pass of the inner loop of `Decode` on the
character `c` (lines 118-123); `none` is the early `return {}`. -/
def decChar (c : Char) (quad : Nat) : Option Nat :=
  if CharToValue c = 0xFF ∧ c ≠ '=' then none
  else some (((quad <<< 6) % U32_MOD) ||| CharToValue c)

/-- The value of `quad` after the inner loop of `Decode` on the four characters of one
quad (lines 115-124). -/
def decQuad (c0 c1 c2 c3 : Char) : Option Nat :=
  (decChar c0 0).bind fun quad =>
  (decChar c1 quad).bind fun quad =>
  (decChar c2 quad).bind fun quad =>
  decChar c3 quad

/-- The bytes that `Decode` pushes for one quad (lines 126-134). -/
def decBytes (c2 c3 : Char) (quad : Nat) : List Byte :=
  [toByte ((quad >>> 16) &&& 0xFF)]
    ++ (if c2 ≠ '=' then [toByte ((quad >>> 8) &&& 0xFF)] else [])
    ++ (if c3 ≠ '=' then [toByte (quad &&& 0xFF)] else [])

/-- What the loop of `Decode` pushes, quad by quad; `none` when it meets an invalid
character. -/
def decGroups : List Char → Option (List Byte)
  | c0 :: c1 :: c2 :: c3 :: rest =>
    match decQuad c0 c1 c2 c3 with
    | none => none
    | some quad => (decGroups rest).map fun r => decBytes c2 c3 quad ++ r
  | _ => some []

/-- The reference encoding of RFC 4648: whole groups as in `specFullGroups`, a last group
of two bytes as three alphabet characters and `"="`, a last group of one byte as two
alphabet characters and `"=="`. -/
def specRfc4648 : List Byte → List Char
  | b0 :: b1 :: b2 :: rest =>
    [specAlphabet.getD (b0.val >>> 2) (Char.ofNat 0),
     specAlphabet.getD (((b0.val &&& 3) <<< 4) ||| (b1.val >>> 4)) (Char.ofNat 0),
     specAlphabet.getD (((b1.val &&& 15) <<< 2) ||| (b2.val >>> 6)) (Char.ofNat 0),
     specAlphabet.getD (b2.val &&& 63) (Char.ofNat 0)] ++ specRfc4648 rest
  | [b0, b1] =>
    [specAlphabet.getD (b0.val >>> 2) (Char.ofNat 0),
     specAlphabet.getD (((b0.val &&& 3) <<< 4) ||| (b1.val >>> 4)) (Char.ofNat 0),
     specAlphabet.getD ((b1.val &&& 15) <<< 2) (Char.ofNat 0), '=']
  | [b0] =>
    [specAlphabet.getD (b0.val >>> 2) (Char.ofNat 0),
     specAlphabet.getD ((b0.val &&& 3) <<< 4) (Char.ofNat 0), '=', '=']
  | [] => []

/-- A character that the specification of `IsValid` admits: one of the alphabet
(`A-Z`, `a-z`, `0-9`, `+`, `/`) or `=`. -/
def specValidChar (c : Char) : Prop := c ∈ specAlphabet ∨ c = '='

/-- The value that a character contributes to `quad` in the amended C17: its index in
the alphabet, and `0xFF` for `'='`. -/
def specCharValue (c : Char) : Nat := if c = '=' then 0xFF else specAlphabet.indexOf c

/-- The value of `quad` for one quad in the amended C17: each character's value is OR-ed
in after a shift by six bits. -/
def specQuadValue (c0 c1 c2 c3 : Char) : Nat :=
  (((((specCharValue c0 <<< 6) ||| specCharValue c1) <<< 6) ||| specCharValue c2) <<< 6)
    ||| specCharValue c3

/-- The bytes of the amended C17, quad by quad: bits 16-23 of the value, then bits 8-15
unless the third character is `'='`, then bits 0-7 unless the fourth is `'='`. -/
def specLooseDecode : List Char → List Byte
  | c0 :: c1 :: c2 :: c3 :: rest =>
    [toByte (specQuadValue c0 c1 c2 c3 >>> 16)]
      ++ (if c2 = '=' then [] else [toByte (specQuadValue c0 c1 c2 c3 >>> 8)])
      ++ (if c3 = '=' then [] else [toByte (specQuadValue c0 c1 c2 c3)])
      ++ specLooseDecode rest
  | _ => []

/-- A buffer followed by the zero bytes that complete its last group of three. -/
def zeroPadded (data : List Byte) : List Byte :=
  data ++ List.replicate ((3 - data.length % 3) % 3) (0 : Byte)

end DHBase64Utils

namespace DHTLVUtils

/-- The bytes that one pass of the loop of `EncodeToBinary` appends for `item`. -/
def encRecord (item : TLVItem) : List Byte := EncodeItem [] item

/-- The records of the items of a list, one after the other. -/
def encRecords : List TLVItem → List Byte
  | [] => []
  | item :: rest => encRecord item ++ encRecords rest

/-- The value that `DecodeFromBinary` assigns to `item.type` from the two bytes at
`pos` and `pos + 1` (lines 98-99). -/
def wireType (h0 h1 : Byte) : Fin 65536 := toU16 ((h0.val <<< 8) ||| h1.val)

/-- The value that `DecodeFromBinary` assigns to `length` from the four bytes at
`pos + 2 .. pos + 5` (lines 103-107). -/
def wireLength (h2 h3 h4 h5 : Byte) : Nat :=
  ((h2.val <<< 24) % U32_MOD) ||| ((h3.val <<< 16) % U32_MOD) |||
    ((h4.val <<< 8) % U32_MOD) ||| h5.val

/-- The six header bytes that `EncodeToBinary` writes for a type `t` and a value of `n`
bytes (lines 61-69). -/
def header (t : Fin 65536) (n : Nat) : List Byte :=
  [toByte ((t.val >>> 8) &&& 0xFF), toByte (t.val &&& 0xFF),
   toByte (((n % U32_MOD) >>> 24) &&& 0xFF), toByte (((n % U32_MOD) >>> 16) &&& 0xFF),
   toByte (((n % U32_MOD) >>> 8) &&& 0xFF), toByte ((n % U32_MOD) &&& 0xFF)]

/-- The wire layout of the specification, as numbers: for each item, in order,
`type >> 8`, `type & 0xFF`, `len >> 24`, `(len >> 16) & 0xFF`, `(len >> 8) & 0xFF`,
`len & 0xFF` with `len = value.length`, then the bytes of the value. -/
def specLayout : List TLVItem → List Nat
  | [] => []
  | item :: rest =>
    [item.type.val >>> 8, item.type.val &&& 0xFF,
     item.value.length >>> 24, (item.value.length >>> 16) &&& 0xFF,
     (item.value.length >>> 8) &&& 0xFF, item.value.length &&& 0xFF]
      ++ item.value.map Fin.val ++ specLayout rest

/-- The sum over the items of `6 + value.length`. -/
def specLength : List TLVItem → Nat
  | [] => 0
  | item :: rest => (6 + item.value.length) + specLength rest

end DHTLVUtils

/-! ## Lemmas -/

theorem lor_eq_add (a k b : Nat) (hb : b < 2 ^ k) : a * 2 ^ k ||| b = a * 2 ^ k + b := by
  rw [Nat.mul_comm]; exact (Nat.mul_add_lt_is_or hb a).symm

theorem land_63 (x : Nat) : x &&& 63 = x % 64 := Nat.and_pow_two_sub_one_eq_mod x 6

theorem land_255 (x : Nat) : x &&& 255 = x % 256 := Nat.and_pow_two_sub_one_eq_mod x 8

theorem land_15 (x : Nat) : x &&& 15 = x % 16 := Nat.and_pow_two_sub_one_eq_mod x 4

theorem land_3 (x : Nat) : x &&& 3 = x % 4 := Nat.and_pow_two_sub_one_eq_mod x 2

theorem getD_append_add {α : Type} (pre l : List α) (k : Nat) (d : α) :
    (pre ++ l).getD (pre.length + k) d = l.getD k d := by
  induction pre with
  | nil => simp
  | cons a pre ih =>
    have h : (a :: pre).length + k = (pre.length + k) + 1 := by simp; omega
    rw [h, List.cons_append, List.getD_cons_succ, ih]

theorem getD_append_length {α : Type} (pre l : List α) (d : α) :
    (pre ++ l).getD pre.length d = l.getD 0 d := by
  simpa using getD_append_add pre l 0 d

namespace DHBase64Utils

theorem EncodeBody_three (pre rest : List Byte) (b0 b1 b2 : Byte) :
    EncodeBody (pre ++ b0 :: b1 :: b2 :: rest) pre.length
      = (pre.length + 3, encQuad (encTriple b0 b1 b2)) := by
  have hlen : (pre ++ b0 :: b1 :: b2 :: rest).length = pre.length + rest.length + 3 := by
    simp only [List.length_append, List.length_cons]; omega
  have h1 : pre.length + 1 < (pre ++ b0 :: b1 :: b2 :: rest).length := by omega
  have h2 : pre.length + 1 + 1 < (pre ++ b0 :: b1 :: b2 :: rest).length := by omega
  have h3 : ¬ pre.length + 1 + 1 + 1 > (pre ++ b0 :: b1 :: b2 :: rest).length := by omega
  have h4 : ¬ pre.length + 1 + 1 + 1 > (pre ++ b0 :: b1 :: b2 :: rest).length + 1 := by
    omega
  have g0 := getD_append_add pre (b0 :: b1 :: b2 :: rest) 0 0
  have g1 := getD_append_add pre (b0 :: b1 :: b2 :: rest) 1 0
  have g2 : (pre ++ b0 :: b1 :: b2 :: rest).getD (pre.length + 1 + 1) 0 = b2 :=
    getD_append_add pre (b0 :: b1 :: b2 :: rest) 2 0
  simp only [Nat.add_zero, List.getD_cons_zero, List.getD_cons_succ] at g0 g1
  simp only [EncodeBody, h1, h2, h3, h4, if_true, if_false, g0, g1, g2, encQuad,
    encTriple, List.cons_append, List.nil_append]

theorem EncodeBody_two (pre : List Byte) (b0 b1 : Byte) :
    EncodeBody (pre ++ [b0, b1]) pre.length
      = (pre.length + 2, encQuad (encTriple b0 b1 0)) := by
  have hlen : (pre ++ [b0, b1]).length = pre.length + 2 := by
    simp only [List.length_append, List.length_cons, List.length_nil]
  have h1 : pre.length + 1 < (pre ++ [b0, b1]).length := by omega
  have h2 : ¬ pre.length + 1 + 1 < (pre ++ [b0, b1]).length := by omega
  have h3 : ¬ pre.length + 1 + 1 > (pre ++ [b0, b1]).length := by omega
  have h4 : ¬ pre.length + 1 + 1 > (pre ++ [b0, b1]).length + 1 := by omega
  have g0 := getD_append_add pre [b0, b1] 0 0
  have g1 := getD_append_add pre [b0, b1] 1 0
  simp only [Nat.add_zero, List.getD_cons_zero, List.getD_cons_succ] at g0 g1
  simp only [EncodeBody, h1, h2, h3, h4, if_true, if_false, g0, g1, encQuad, encTriple,
    List.cons_append, List.nil_append, Fin.val_zero, Nat.or_zero]

theorem EncodeBody_one (pre : List Byte) (b0 : Byte) :
    EncodeBody (pre ++ [b0]) pre.length = (pre.length + 1, encQuad (encTriple b0 0 0)) := by
  have hlen : (pre ++ [b0]).length = pre.length + 1 := by
    simp only [List.length_append, List.length_cons, List.length_nil]
  have h1 : ¬ pre.length + 1 < (pre ++ [b0]).length := by omega
  have h3 : ¬ pre.length + 1 > (pre ++ [b0]).length := by omega
  have h4 : ¬ pre.length + 1 > (pre ++ [b0]).length + 1 := by omega
  have g0 := getD_append_add pre [b0] 0 0
  simp only [Nat.add_zero, List.getD_cons_zero] at g0
  simp only [EncodeBody, h1, h3, h4, if_true, if_false, g0, encQuad, encTriple,
    List.cons_append, List.nil_append, Fin.val_zero, Nat.or_zero, Nat.zero_shiftLeft,
    Nat.zero_mod]

theorem EncodeLoop_eq (l : List Byte) :
    ∀ (pre : List Byte) (fuel : Nat) (acc : List Char), l.length ≤ fuel →
      EncodeLoop (pre ++ l) fuel pre.length acc = some (acc ++ encGroups l) := by
  induction l using encGroups.induct with
  | case1 b0 b1 b2 rest ih =>
    intro pre fuel acc hf
    obtain ⟨f, rfl⟩ : ∃ f, fuel = f + 1 := ⟨fuel - 1, by simp at hf; omega⟩
    have hlt : pre.length < (pre ++ b0 :: b1 :: b2 :: rest).length := by
      simp only [List.length_append, List.length_cons]; omega
    rw [EncodeLoop, if_pos hlt, EncodeBody_three]
    have hsplit : pre ++ b0 :: b1 :: b2 :: rest = (pre ++ [b0, b1, b2]) ++ rest := by simp
    have hpl : pre.length + 3 = (pre ++ [b0, b1, b2]).length := by simp
    simp only []
    rw [hsplit, hpl, ih (pre ++ [b0, b1, b2]) f _ (by simp at hf; omega)]
    simp [encGroups]
  | case2 b0 b1 =>
    intro pre fuel acc hf
    obtain ⟨f, rfl⟩ : ∃ f, fuel = f + 1 := ⟨fuel - 1, by simp at hf; omega⟩
    have hlt : pre.length < (pre ++ [b0, b1]).length := by simp
    have hnl : ¬ pre.length + 2 < (pre ++ [b0, b1]).length := by simp
    rw [EncodeLoop, if_pos hlt, EncodeBody_two]
    cases f with
    | zero => simp [EncodeLoop, encGroups]
    | succ f => simp [EncodeLoop, encGroups]
  | case3 b0 =>
    intro pre fuel acc hf
    obtain ⟨f, rfl⟩ : ∃ f, fuel = f + 1 := ⟨fuel - 1, by simp at hf; omega⟩
    have hlt : pre.length < (pre ++ [b0]).length := by simp
    rw [EncodeLoop, if_pos hlt, EncodeBody_one]
    cases f with
    | zero => simp [EncodeLoop, encGroups]
    | succ f => simp [EncodeLoop, encGroups]
  | case4 =>
    intro pre fuel acc _
    cases fuel with
    | zero => simp [EncodeLoop, encGroups]
    | succ f => simp [EncodeLoop, encGroups]

/-- The loop of `Encode` ends, and `Encode` returns the groups of `encGroups`. -/
theorem Encode_eq_encGroups (data : List Byte) : Encode data = some (encGroups data) := by
  unfold Encode
  cases data with
  | nil => simp [encGroups]
  | cons b rest =>
    have h := EncodeLoop_eq (b :: rest) [] (b :: rest).length [] (Nat.le_refl _)
    simpa using h

theorem encTriple_eq (b0 b1 b2 : Byte) :
    encTriple b0 b1 b2 = b0.val * 65536 + b1.val * 256 + b2.val := by
  have h0 := b0.isLt
  have h1 := b1.isLt
  have h2 := b2.isLt
  have e0 : (b0.val <<< 16) % 2 ^ 32 = b0.val * 2 ^ 16 := by rw [Nat.shiftLeft_eq]; omega
  have e1 : (b1.val <<< 8) % 2 ^ 32 = b1.val * 256 := by rw [Nat.shiftLeft_eq]; omega
  have e2 : b0.val * 2 ^ 16 + b1.val * 256 = (b0.val * 256 + b1.val) * 2 ^ 8 := by omega
  unfold encTriple U32_MOD
  rw [e0, e1, lor_eq_add b0.val 16 (b1.val * 256) (by omega), e2,
    lor_eq_add _ 8 b2.val (by omega)]
  omega

/-- The four characters written for a whole group are those the specification names. -/
theorem encQuad_encTriple (b0 b1 b2 : Byte) :
    encQuad (encTriple b0 b1 b2) =
      [specAlphabet.getD (b0.val >>> 2) (Char.ofNat 0),
       specAlphabet.getD (((b0.val &&& 3) <<< 4) ||| (b1.val >>> 4)) (Char.ofNat 0),
       specAlphabet.getD (((b1.val &&& 15) <<< 2) ||| (b2.val >>> 6)) (Char.ofNat 0),
       specAlphabet.getD (b2.val &&& 63) (Char.ofNat 0)] := by
  have h0 := b0.isLt
  have h1 := b1.isLt
  have h2 := b2.isLt
  have i0 : ((b0.val * 65536 + b1.val * 256 + b2.val) >>> 18) &&& 63 = b0.val >>> 2 := by
    rw [land_63, Nat.shiftRight_eq_div_pow, Nat.shiftRight_eq_div_pow]; omega
  have i1 : ((b0.val * 65536 + b1.val * 256 + b2.val) >>> 12) &&& 63
      = ((b0.val &&& 3) <<< 4) ||| (b1.val >>> 4) := by
    rw [land_63, land_3, Nat.shiftRight_eq_div_pow, Nat.shiftRight_eq_div_pow,
      Nat.shiftLeft_eq, lor_eq_add _ 4 _ (by omega)]
    omega
  have i2 : ((b0.val * 65536 + b1.val * 256 + b2.val) >>> 6) &&& 63
      = ((b1.val &&& 15) <<< 2) ||| (b2.val >>> 6) := by
    rw [land_63, land_15, Nat.shiftRight_eq_div_pow, Nat.shiftRight_eq_div_pow,
      Nat.shiftLeft_eq, lor_eq_add _ 2 _ (by omega)]
    omega
  have i3 : (b0.val * 65536 + b1.val * 256 + b2.val) &&& 63 = b2.val &&& 63 := by
    rw [land_63, land_63]; omega
  simp only [encQuad, encTriple_eq, base64Char, Nat.reduceBin] 
  rw [i0, i1, i2, i3]
  rfl

theorem encGroups_eq_specFullGroups (data : List Byte) (h : data.length % 3 = 0) :
    encGroups data = specFullGroups data := by
  induction data using encGroups.induct with
  | case1 b0 b1 b2 rest ih =>
    have hr : rest.length % 3 = 0 := by simp only [List.length_cons] at h; omega
    rw [encGroups, specFullGroups, encQuad_encTriple, ih hr]
  | case2 b0 b1 => simp at h
  | case3 b0 => simp at h
  | case4 => rfl

theorem base64Char_mem (x : Nat) : base64Char (x &&& 0x3F) ∈ BASE64_CHARS := by
  have hlt : x &&& 0x3F < 64 := Nat.and_lt_two_pow x (by decide : 63 < 2 ^ 6)
  have hall : ∀ i : Fin 64, base64Char i.val ∈ BASE64_CHARS := by decide
  exact hall ⟨x &&& 0x3F, hlt⟩

/-- Every character that the loop of `Encode` writes is one of the table. -/
theorem encGroups_mem (data : List Byte) : ∀ c ∈ encGroups data, c ∈ BASE64_CHARS := by
  induction data using encGroups.induct with
  | case1 b0 b1 b2 rest ih =>
    intro c hc
    rw [encGroups, List.mem_append] at hc
    rcases hc with hc | hc
    · simp only [encQuad, List.mem_cons, List.mem_singleton, List.not_mem_nil, or_false] at hc
      rcases hc with rfl | rfl | rfl | rfl <;> exact base64Char_mem _
    · exact ih c hc
  | case2 b0 b1 =>
    intro c hc
    simp only [encGroups, encQuad, List.mem_cons, List.mem_singleton, List.not_mem_nil,
      or_false] at hc
    rcases hc with rfl | rfl | rfl | rfl <;> exact base64Char_mem _
  | case3 b0 =>
    intro c hc
    simp only [encGroups, encQuad, List.mem_cons, List.mem_singleton, List.not_mem_nil,
      or_false] at hc
    rcases hc with rfl | rfl | rfl | rfl <;> exact base64Char_mem _
  | case4 => intro c hc; simp [encGroups] at hc

theorem specFullGroups_length (data : List Byte) (h : data.length % 3 = 0) :
    (specFullGroups data).length = 4 * (data.length / 3) := by
  induction data using encGroups.induct with
  | case1 b0 b1 b2 rest ih =>
    have hr : rest.length % 3 = 0 := by simp only [List.length_cons] at h; omega
    simp only [specFullGroups, List.length_append, List.length_cons, List.length_nil, ih hr]
    omega
  | case2 b0 b1 => simp at h
  | case3 b0 => simp at h
  | case4 => rfl

/-- The loop of `Decode` ends within a fuel of the number of characters left. -/
theorem DecodeLoop_returns (encoded : List Char) :
    ∀ (fuel i : Nat) (acc : List Byte), encoded.length ≤ i + fuel →
      ∃ r, DecodeLoop encoded fuel i acc = some r := by
  intro fuel
  induction fuel with
  | zero =>
    intro i acc hf
    exact ⟨acc, by rw [DecodeLoop, if_neg (by omega)]⟩
  | succ f ih =>
    intro i acc hf
    rw [DecodeLoop]
    by_cases hi : i < encoded.length
    · rw [if_pos hi]
      cases DecodeQuad encoded i with
      | none => exact ⟨[], rfl⟩
      | some quad => exact ih (i + 4) _ (by omega)
    · exact ⟨acc, by rw [if_neg hi]⟩

/-- Function `Decode` returns on every string. -/
theorem Decode_returns (encoded : List Char) : ∃ r, Decode encoded = some r := by
  unfold Decode
  by_cases h1 : encoded.isEmpty = true
  · exact ⟨[], by rw [if_pos h1]⟩
  · rw [if_neg h1]
    by_cases h2 : encoded.length % 4 ≠ 0
    · exact ⟨[], by rw [if_pos h2]⟩
    · rw [if_neg h2]
      exact DecodeLoop_returns encoded encoded.length 0 [] (by omega)

theorem toNat_le_of_le (c d : Char) (h : c ≤ d) : c.toNat ≤ d.toNat := h

theorem char_small (c : Char) (h : c.toNat < 128) : ∃ n : Fin 128, c = Char.ofNat n.val :=
  ⟨⟨c.toNat, h⟩, (Char.ofNat_toNat c).symm⟩

set_option maxRecDepth 100000 in
theorem IsValidChar_small : ∀ n : Fin 128,
    (IsValidChar (Char.ofNat n.val) = true ↔
      (Char.ofNat n.val ∈ specAlphabet ∨ Char.ofNat n.val = '=')) := by
  decide

set_option maxRecDepth 100000 in
theorem CharToValue_small : ∀ n : Fin 128,
    (IsValidChar (Char.ofNat n.val) = false ↔
      (CharToValue (Char.ofNat n.val) = 0xFF ∧ Char.ofNat n.val ≠ '=')) := by
  decide

set_option maxRecDepth 100000 in
theorem specAlphabet_small : ∀ c ∈ specAlphabet, c.toNat < 128 := by
  decide

theorem IsValidChar_large (c : Char) (h : 128 ≤ c.toNat) : IsValidChar c = false := by
  have hZ : ¬ ('A' ≤ c ∧ c ≤ 'Z') := fun hh => by
    have := toNat_le_of_le _ _ hh.2
    have e : 'Z'.toNat = 90 := rfl
    omega
  have hz : ¬ ('a' ≤ c ∧ c ≤ 'z') := fun hh => by
    have := toNat_le_of_le _ _ hh.2
    have e : 'z'.toNat = 122 := rfl
    omega
  have h9 : ¬ ('0' ≤ c ∧ c ≤ '9') := fun hh => by
    have := toNat_le_of_le _ _ hh.2
    have e : '9'.toNat = 57 := rfl
    omega
  have hp : ¬ (c = '+' ∨ c = '/' ∨ c = '=') := by
    rintro (rfl | rfl | rfl) <;> revert h <;> decide
  simp only [IsValidChar, hZ, hz, h9, hp, if_false]

theorem CharToValue_large (c : Char) (h : 128 ≤ c.toNat) :
    CharToValue c = 0xFF ∧ c ≠ '=' := by
  have hZ : ¬ ('A' ≤ c ∧ c ≤ 'Z') := fun hh => by
    have := toNat_le_of_le _ _ hh.2
    have e : 'Z'.toNat = 90 := rfl
    omega
  have hz : ¬ ('a' ≤ c ∧ c ≤ 'z') := fun hh => by
    have := toNat_le_of_le _ _ hh.2
    have e : 'z'.toNat = 122 := rfl
    omega
  have h9 : ¬ ('0' ≤ c ∧ c ≤ '9') := fun hh => by
    have := toNat_le_of_le _ _ hh.2
    have e : '9'.toNat = 57 := rfl
    omega
  have hp : c ≠ '+' := by rintro rfl; revert h; decide
  have hs : c ≠ '/' := by rintro rfl; revert h; decide
  have he : c ≠ '=' := by rintro rfl; revert h; decide
  refine ⟨?_, he⟩
  simp only [CharToValue, hZ, hz, h9, hp, hs, if_false]

/-- The test of `IsValid` on a character is the one of the specification. -/
theorem IsValidChar_iff (c : Char) : IsValidChar c = true ↔ specValidChar c := by
  unfold specValidChar
  by_cases h : c.toNat < 128
  · obtain ⟨n, rfl⟩ := char_small c h
    exact IsValidChar_small n
  · rw [IsValidChar_large c (by omega)]
    constructor
    · intro hf; exact absurd hf (by decide)
    · rintro (hm | rfl)
      · exact absurd (specAlphabet_small c hm) h
      · exact absurd (by decide) h

/-- The characters on which the inner loop of `Decode` returns early are those that
`IsValid` refuses. -/
theorem IsValidChar_false_iff (c : Char) :
    IsValidChar c = false ↔ (CharToValue c = 0xFF ∧ c ≠ '=') := by
  by_cases h : c.toNat < 128
  · obtain ⟨n, rfl⟩ := char_small c h
    exact CharToValue_small n
  · exact ⟨fun _ => CharToValue_large c (by omega), fun _ => IsValidChar_large c (by omega)⟩

theorem decChar_eq_none_iff (c : Char) (quad : Nat) :
    decChar c quad = none ↔ IsValidChar c = false := by
  rw [IsValidChar_false_iff]
  unfold decChar
  by_cases h : CharToValue c = 0xFF ∧ c ≠ '='
  · rw [if_pos h]
    exact ⟨fun _ => h, fun _ => rfl⟩
  · rw [if_neg h]
    exact ⟨fun hh => Option.noConfusion hh, fun hh => absurd hh h⟩

theorem DecodeQuad_at (pre rest : List Char) (c0 c1 c2 c3 : Char) :
    DecodeQuad (pre ++ c0 :: c1 :: c2 :: c3 :: rest) pre.length = decQuad c0 c1 c2 c3 := by
  have g0 : (pre ++ c0 :: c1 :: c2 :: c3 :: rest).getD (pre.length + 0) (Char.ofNat 0) = c0 :=
    getD_append_add pre _ 0 _
  have g1 : (pre ++ c0 :: c1 :: c2 :: c3 :: rest).getD (pre.length + 1) (Char.ofNat 0) = c1 :=
    getD_append_add pre _ 1 _
  have g2 : (pre ++ c0 :: c1 :: c2 :: c3 :: rest).getD (pre.length + 2) (Char.ofNat 0) = c2 :=
    getD_append_add pre _ 2 _
  have g3 : (pre ++ c0 :: c1 :: c2 :: c3 :: rest).getD (pre.length + 3) (Char.ofNat 0) = c3 :=
    getD_append_add pre _ 3 _
  simp only [DecodeQuad, DecodeChar, decQuad, decChar, g0, g1, g2, g3]

theorem four_le_length {α : Type} (l : List α) (h : 4 ≤ l.length) :
    ∃ c0 c1 c2 c3 rest, l = c0 :: c1 :: c2 :: c3 :: rest := by
  rcases l with _ | ⟨c0, _ | ⟨c1, _ | ⟨c2, _ | ⟨c3, rest⟩⟩⟩⟩
  all_goals first
    | exact ⟨c0, c1, c2, c3, rest, rfl⟩
    | (simp only [List.length_cons, List.length_nil] at h; omega)

/-- The loop of `Decode` over a string of whole quads: it ends within the fuel, with the
empty buffer when `decGroups` meets an invalid character and with the bytes of
`decGroups` otherwise. -/
theorem DecodeLoop_eq :
    ∀ (n : Nat) (l pre : List Char) (fuel : Nat) (acc : List Byte),
      l.length = 4 * n → l.length ≤ fuel →
      DecodeLoop (pre ++ l) fuel pre.length acc
        = some ((decGroups l).elim [] (fun r => acc ++ r)) := by
  intro n
  induction n with
  | zero =>
    intro l pre fuel acc hl _
    have hnil : l = [] := List.length_eq_zero.mp (by omega)
    subst hnil
    have hn : ¬ pre.length < (pre ++ []).length := by simp
    cases fuel with
    | zero => simp [DecodeLoop, decGroups]
    | succ f => simp [DecodeLoop, decGroups]
  | succ n ih =>
    intro l pre fuel acc hl hf
    obtain ⟨c0, c1, c2, c3, rest, rfl⟩ := four_le_length l (by omega)
    obtain ⟨f, rfl⟩ : ∃ f, fuel = f + 1 := ⟨fuel - 1, by omega⟩
    have hlt : pre.length < (pre ++ c0 :: c1 :: c2 :: c3 :: rest).length := by
      simp only [List.length_append, List.length_cons]; omega
    have hr : rest.length = 4 * n := by simp only [List.length_cons] at hl; omega
    have hrf : rest.length ≤ f := by simp only [List.length_cons] at hf; omega
    have g2 : (pre ++ c0 :: c1 :: c2 :: c3 :: rest).getD (pre.length + 2) (Char.ofNat 0)
        = c2 := getD_append_add pre _ 2 _
    have g3 : (pre ++ c0 :: c1 :: c2 :: c3 :: rest).getD (pre.length + 3) (Char.ofNat 0)
        = c3 := getD_append_add pre _ 3 _
    rw [DecodeLoop, if_pos hlt, DecodeQuad_at, decGroups]
    cases hq : decQuad c0 c1 c2 c3 with
    | none => rfl
    | some quad =>
      have hsplit : pre ++ c0 :: c1 :: c2 :: c3 :: rest = (pre ++ [c0, c1, c2, c3]) ++ rest := by
        simp
      have hpl : pre.length + 4 = (pre ++ [c0, c1, c2, c3]).length := by simp
      simp only [g2, g3]
      rw [hsplit, hpl, ih rest (pre ++ [c0, c1, c2, c3]) f _ hr hrf]
      cases decGroups rest with
      | none => rfl
      | some r =>
        simp only [Option.map_some', Option.elim, decBytes]
        by_cases e2 : c2 = '=' <;> by_cases e3 : c3 = '=' <;> simp [e2, e3]

/-- Function `Decode` on a string of whole quads, in closed form. -/
theorem Decode_eq_decGroups (encoded : List Char) (h : encoded.length % 4 = 0) :
    Decode encoded = some ((decGroups encoded).getD []) := by
  unfold Decode
  cases encoded with
  | nil => rfl
  | cons c rest =>
    have hne : (c :: rest).isEmpty = false := rfl
    have h4 : ¬ (c :: rest).length % 4 ≠ 0 := by omega
    rw [hne, if_neg (by simp), if_neg h4]
    have := DecodeLoop_eq ((c :: rest).length / 4) (c :: rest) [] (c :: rest).length []
      (by omega) (Nat.le_refl _)
    simp only [List.nil_append, List.length_nil] at this
    rw [this]
    cases decGroups (c :: rest) <;> rfl

theorem decChar_isSome (c : Char) (quad : Nat) (h : IsValidChar c = true) :
    decChar c quad = some (((quad <<< 6) % U32_MOD) ||| CharToValue c) := by
  have hn : ¬ (CharToValue c = 0xFF ∧ c ≠ '=') := by
    intro hh
    rw [(IsValidChar_false_iff c).mpr hh] at h
    exact absurd h (by decide)
  rw [decChar, if_neg hn]

theorem decQuad_eq_none_iff (c0 c1 c2 c3 : Char) :
    decQuad c0 c1 c2 c3 = none ↔
      (IsValidChar c0 = false ∨ IsValidChar c1 = false ∨ IsValidChar c2 = false ∨
        IsValidChar c3 = false) := by
  unfold decQuad
  cases h0 : IsValidChar c0 with
  | false => simp [(decChar_eq_none_iff c0 0).mpr h0]
  | true =>
    rw [decChar_isSome c0 0 h0, Option.some_bind]
    cases h1 : IsValidChar c1 with
    | false => simp [(decChar_eq_none_iff c1 _).mpr h1]
    | true =>
      rw [decChar_isSome c1 _ h1, Option.some_bind]
      cases h2 : IsValidChar c2 with
      | false => simp [(decChar_eq_none_iff c2 _).mpr h2]
      | true =>
        rw [decChar_isSome c2 _ h2, Option.some_bind]
        cases h3 : IsValidChar c3 with
        | false => simp [(decChar_eq_none_iff c3 _).mpr h3]
        | true => simp [decChar_isSome c3 _ h3]

/-- On whole quads, `decGroups` meets an invalid character exactly when the string holds
one. -/
theorem decGroups_eq_none_iff :
    ∀ (n : Nat) (l : List Char), l.length = 4 * n →
      (decGroups l = none ↔ ∃ c ∈ l, IsValidChar c = false) := by
  intro n
  induction n with
  | zero =>
    intro l hl
    have hnil : l = [] := List.length_eq_zero.mp (by omega)
    subst hnil
    simp [decGroups]
  | succ n ih =>
    intro l hl
    obtain ⟨c0, c1, c2, c3, rest, rfl⟩ := four_le_length l (by omega)
    have hr : rest.length = 4 * n := by simp only [List.length_cons] at hl; omega
    rw [decGroups]
    cases hq : decQuad c0 c1 c2 c3 with
    | none =>
      have := (decQuad_eq_none_iff c0 c1 c2 c3).mp hq
      simp only [true_iff]
      rcases this with h | h | h | h
      · exact ⟨c0, by simp, h⟩
      · exact ⟨c1, by simp, h⟩
      · exact ⟨c2, by simp, h⟩
      · exact ⟨c3, by simp, h⟩
    | some quad =>
      have hv : ¬ (IsValidChar c0 = false ∨ IsValidChar c1 = false ∨ IsValidChar c2 = false ∨
          IsValidChar c3 = false) := by
        intro hh
        rw [(decQuad_eq_none_iff c0 c1 c2 c3).mpr hh] at hq
        exact Option.noConfusion hq
      simp only [Option.map_eq_none', ih rest hr]
      constructor
      · rintro ⟨c, hc, hcv⟩
        exact ⟨c, by simp [hc], hcv⟩
      · rintro ⟨c, hc, hcv⟩
        simp only [List.mem_cons] at hc
        rcases hc with rfl | rfl | rfl | rfl | hc
        · exact absurd (Or.inl hcv) hv
        · exact absurd (Or.inr (Or.inl hcv)) hv
        · exact absurd (Or.inr (Or.inr (Or.inl hcv))) hv
        · exact absurd (Or.inr (Or.inr (Or.inr hcv))) hv
        · exact ⟨c, hc, hcv⟩

/-- Every quad that `decGroups` accepts gives at least one byte. -/
theorem decGroups_length :
    ∀ (n : Nat) (l : List Char) (r : List Byte), l.length = 4 * n →
      decGroups l = some r → n ≤ r.length := by
  intro n
  induction n with
  | zero => intro l r _ _; omega
  | succ n ih =>
    intro l r hl hdec
    obtain ⟨c0, c1, c2, c3, rest, rfl⟩ := four_le_length l (by omega)
    have hr : rest.length = 4 * n := by simp only [List.length_cons] at hl; omega
    rw [decGroups] at hdec
    cases hq : decQuad c0 c1 c2 c3 with
    | none => rw [hq] at hdec; exact Option.noConfusion hdec
    | some quad =>
      rw [hq] at hdec
      cases hg : decGroups rest with
      | none => rw [hg] at hdec; exact Option.noConfusion hdec
      | some r2 =>
        rw [hg] at hdec
        simp only [Option.map_some', Option.some.injEq] at hdec
        subst hdec
        have := ih rest r2 hr hg
        simp only [decBytes, List.length_append, List.length_cons, List.length_nil]
        omega

theorem IsValid_eq_true_iff (encoded : List Char) :
    IsValid encoded = true ↔
      (encoded ≠ [] ∧ encoded.length % 4 = 0 ∧ ∀ c ∈ encoded, IsValidChar c = true) := by
  unfold IsValid
  cases encoded with
  | nil => simp
  | cons c rest =>
    have hne : (c :: rest).isEmpty = false := rfl
    rw [hne]
    by_cases h4 : (c :: rest).length % 4 = 0
    · simp [h4]
    · simp [h4]

/-- A string that `IsValid` accepts is decoded to at least one byte per quad. -/
theorem Decode_of_IsValid (encoded : List Char) (h : IsValid encoded = true) :
    ∃ r, Decode encoded = some r ∧ encoded.length / 4 ≤ r.length ∧ r ≠ [] := by
  obtain ⟨hne, h4, hall⟩ := (IsValid_eq_true_iff encoded).mp h
  have hlen : encoded.length = 4 * (encoded.length / 4) := by omega
  have hnn : decGroups encoded ≠ none := by
    intro hnone
    obtain ⟨c, hc, hcv⟩ := (decGroups_eq_none_iff _ encoded hlen).mp hnone
    rw [hall c hc] at hcv
    exact absurd hcv (by decide)
  obtain ⟨r, hr⟩ := Option.ne_none_iff_exists'.mp hnn
  have hle := decGroups_length _ encoded r hlen hr
  refine ⟨r, ?_, hle, ?_⟩
  · rw [Decode_eq_decGroups encoded h4, hr]; rfl
  · intro hnil
    subst hnil
    have : encoded.length ≠ 0 := fun h0 => hne (List.length_eq_zero.mp h0)
    simp only [List.length_nil] at hle
    omega

/-- A string that `IsValid` refuses is decoded to the empty buffer. -/
theorem Decode_of_not_IsValid (encoded : List Char) (h : IsValid encoded = false) :
    Decode encoded = some [] := by
  by_cases hne : encoded = []
  · subst hne; rfl
  · by_cases h4 : encoded.length % 4 = 0
    · have hlen : encoded.length = 4 * (encoded.length / 4) := by omega
      have hex : ∃ c ∈ encoded, IsValidChar c = false := by
        by_contra hcon
        have hall : ∀ c ∈ encoded, IsValidChar c = true := by
          intro c hc
          cases hv : IsValidChar c with
          | true => rfl
          | false => exact absurd ⟨c, hc, hv⟩ hcon
        rw [(IsValid_eq_true_iff encoded).mpr ⟨hne, h4, hall⟩] at h
        exact absurd h (by decide)
      rw [Decode_eq_decGroups encoded h4, (decGroups_eq_none_iff _ encoded hlen).mpr hex]
      rfl
    · unfold Decode
      cases encoded with
      | nil => exact absurd rfl hne
      | cons c rest =>
        have he : (c :: rest).isEmpty = false := rfl
        rw [he, if_neg (by simp), if_pos h4]

theorem shl6_or (q v : Nat) (hq : q < 2 ^ 26) (hv : v < 64) :
    ((q <<< 6) % U32_MOD) ||| v = q * 64 + v := by
  have e : (q <<< 6) % U32_MOD = q * 2 ^ 6 := by
    rw [Nat.shiftLeft_eq, U32_MOD]; omega
  rw [e, lor_eq_add q 6 v (by omega)]
  omega

theorem shl6_or_255 (q : Nat) (hq : q < 2 ^ 26) :
    ((q <<< 6) % U32_MOD) ||| 255 = (q / 4) * 256 + 255 := by
  have e : (q <<< 6) % U32_MOD = (q / 4) * 2 ^ 8 + (q % 4) * 64 := by
    rw [Nat.shiftLeft_eq, U32_MOD]; omega
  have hlow : (q % 4) * 64 ||| 255 = 255 := by
    have h4 : q % 4 = 0 ∨ q % 4 = 1 ∨ q % 4 = 2 ∨ q % 4 = 3 := by omega
    rcases h4 with h | h | h | h <;> rw [h] <;> decide
  rw [e, ← lor_eq_add (q / 4) 8 ((q % 4) * 64) (by omega), Nat.or_assoc, hlow,
    lor_eq_add (q / 4) 8 255 (by omega)]
  omega

theorem base64Char_value : ∀ v : Fin 64,
    CharToValue (base64Char v.val) = v.val ∧ base64Char v.val ≠ '=' := by
  decide

theorem decChar_table (v quad : Nat) (hv : v < 64) (hq : quad < 2 ^ 26) :
    decChar (base64Char v) quad = some (quad * 64 + v) := by
  obtain ⟨h1, _⟩ := base64Char_value ⟨v, hv⟩
  simp only at h1
  have hn : ¬ (CharToValue (base64Char v) = 0xFF ∧ base64Char v ≠ '=') := by
    rw [h1]; intro hh; omega
  rw [decChar, if_neg hn, h1, shl6_or quad v hq hv]

theorem decChar_pad (quad : Nat) (hq : quad < 2 ^ 26) :
    decChar '=' quad = some ((quad / 4) * 256 + 255) := by
  have h1 : CharToValue '=' = 255 := by decide
  have hn : ¬ (CharToValue '=' = 0xFF ∧ '=' ≠ '=') := fun hh => hh.2 rfl
  rw [decChar, if_neg hn, h1, shl6_or_255 quad hq]

theorem decQuad_table (v0 v1 v2 v3 : Nat) (h0 : v0 < 64) (h1 : v1 < 64) (h2 : v2 < 64)
    (h3 : v3 < 64) :
    decQuad (base64Char v0) (base64Char v1) (base64Char v2) (base64Char v3)
      = some (v0 * 262144 + v1 * 4096 + v2 * 64 + v3) := by
  rw [decQuad, decChar_table v0 0 h0 (by omega), Option.some_bind,
    decChar_table v1 _ h1 (by omega), Option.some_bind,
    decChar_table v2 _ h2 (by omega), Option.some_bind,
    decChar_table v3 _ h3 (by omega)]
  exact congrArg some (by omega)

theorem decQuad_pad1 (v0 v1 v2 : Nat) (h0 : v0 < 64) (h1 : v1 < 64) (h2 : v2 < 64) :
    decQuad (base64Char v0) (base64Char v1) (base64Char v2) '='
      = some ((v0 * 4096 + v1 * 64 + v2) / 4 * 256 + 255) := by
  rw [decQuad, decChar_table v0 0 h0 (by omega), Option.some_bind,
    decChar_table v1 _ h1 (by omega), Option.some_bind,
    decChar_table v2 _ h2 (by omega), Option.some_bind,
    decChar_pad _ (by omega)]
  exact congrArg some (by omega)

theorem decQuad_pad2 (v0 v1 : Nat) (h0 : v0 < 64) (h1 : v1 < 64) :
    decQuad (base64Char v0) (base64Char v1) '=' '='
      = some (((v0 * 64 + v1) / 4 * 256 + 255) / 4 * 256 + 255) := by
  rw [decQuad, decChar_table v0 0 h0 (by omega), Option.some_bind,
    decChar_table v1 _ h1 (by omega), Option.some_bind,
    decChar_pad _ (by omega), Option.some_bind, decChar_pad _ (by omega)]
  exact congrArg some (by omega)

theorem base64Char_ne_pad (v : Nat) (hv : v < 64) : base64Char v ≠ '=' :=
  (base64Char_value ⟨v, hv⟩).2

/-- The loop of `Decode` on the four characters that `Encode` writes for `triple`: the
three bytes of `triple`. -/
theorem decGroups_encQuad (triple : Nat) (ht : triple < 2 ^ 24) (rest : List Char) :
    decGroups (encQuad triple ++ rest)
      = (decGroups rest).map fun r =>
          [toByte (triple / 65536), toByte (triple / 256), toByte triple] ++ r := by
  have m0 : (triple >>> 18) &&& 0x3F = triple / 262144 % 64 := by
    rw [land_63, Nat.shiftRight_eq_div_pow]
  have m1 : (triple >>> 12) &&& 0x3F = triple / 4096 % 64 := by
    rw [land_63, Nat.shiftRight_eq_div_pow]
  have m2 : (triple >>> 6) &&& 0x3F = triple / 64 % 64 := by
    rw [land_63, Nat.shiftRight_eq_div_pow]
  have m3 : triple &&& 0x3F = triple % 64 := land_63 triple
  have hsum : triple / 262144 % 64 * 262144 + triple / 4096 % 64 * 4096
      + triple / 64 % 64 * 64 + triple % 64 = triple := by omega
  simp only [encQuad, List.cons_append, List.nil_append]
  rw [decGroups, m0, m1, m2, m3,
    decQuad_table _ _ _ _ (Nat.mod_lt _ (by decide)) (Nat.mod_lt _ (by decide))
      (Nat.mod_lt _ (by decide)) (Nat.mod_lt _ (by decide)), hsum]
  have c2 := base64Char_ne_pad (triple / 64 % 64) (Nat.mod_lt _ (by decide))
  have c3 := base64Char_ne_pad (triple % 64) (Nat.mod_lt _ (by decide))
  have b0 : toByte ((triple >>> 16) &&& 0xFF) = toByte (triple / 65536) := by
    apply Fin.ext
    simp only [toByte]
    rw [land_255, Nat.shiftRight_eq_div_pow]; omega
  have b1 : toByte ((triple >>> 8) &&& 0xFF) = toByte (triple / 256) := by
    apply Fin.ext
    simp only [toByte]
    rw [land_255, Nat.shiftRight_eq_div_pow]; omega
  have b2 : toByte (triple &&& 0xFF) = toByte triple := by
    apply Fin.ext
    simp only [toByte]
    rw [land_255]; omega
  simp only [decBytes, c2, c3, ne_eq, not_false_eq_true, if_true, b0, b1, b2,
    List.cons_append, List.nil_append]

theorem toByte_triple (b0 b1 b2 : Byte) :
    toByte (encTriple b0 b1 b2 / 65536) = b0 ∧ toByte (encTriple b0 b1 b2 / 256) = b1 ∧
      toByte (encTriple b0 b1 b2) = b2 := by
  have h0 := b0.isLt
  have h1 := b1.isLt
  have h2 := b2.isLt
  rw [encTriple_eq]
  refine ⟨Fin.ext ?_, Fin.ext ?_, Fin.ext ?_⟩ <;> simp only [toByte] <;> omega

theorem encTriple_lt (b0 b1 b2 : Byte) : encTriple b0 b1 b2 < 2 ^ 24 := by
  have h0 := b0.isLt
  have h1 := b1.isLt
  have h2 := b2.isLt
  rw [encTriple_eq]; omega

/-- The loop of `Decode` on what the loop of `Encode` writes: the buffer, completed with
zero bytes to whole groups. -/
theorem decGroups_encGroups (data : List Byte) :
    decGroups (encGroups data) = some (zeroPadded data) := by
  induction data using encGroups.induct with
  | case1 b0 b1 b2 rest ih =>
    obtain ⟨e0, e1, e2⟩ := toByte_triple b0 b1 b2
    rw [encGroups, decGroups_encQuad _ (encTriple_lt b0 b1 b2), ih, e0, e1, e2]
    have hm : (3 - (b0 :: b1 :: b2 :: rest).length % 3) % 3 = (3 - rest.length % 3) % 3 := by
      simp only [List.length_cons]; omega
    simp only [zeroPadded, hm, Option.map_some', List.cons_append, List.nil_append]
  | case2 b0 b1 =>
    obtain ⟨e0, e1, e2⟩ := toByte_triple b0 b1 0
    have := decGroups_encQuad _ (encTriple_lt b0 b1 0) []
    rw [List.append_nil] at this
    rw [encGroups, this, e0, e1, e2]
    rfl
  | case3 b0 =>
    obtain ⟨e0, e1, e2⟩ := toByte_triple b0 0 0
    have := decGroups_encQuad _ (encTriple_lt b0 0 0) []
    rw [List.append_nil] at this
    rw [encGroups, this, e0, e1, e2]
    rfl
  | case4 => rfl

theorem specAlphabet_getD (x : Nat) : specAlphabet.getD x (Char.ofNat 0) = base64Char x := rfl

theorem decGroups_pad1 (b0 b1 : Byte) :
    decGroups
      [specAlphabet.getD (b0.val >>> 2) (Char.ofNat 0),
       specAlphabet.getD (((b0.val &&& 3) <<< 4) ||| (b1.val >>> 4)) (Char.ofNat 0),
       specAlphabet.getD ((b1.val &&& 15) <<< 2) (Char.ofNat 0), '=']
      = some [b0, b1] := by
  have h0 := b0.isLt
  have h1 := b1.isLt
  have i0 : b0.val >>> 2 = b0.val / 4 := by rw [Nat.shiftRight_eq_div_pow]
  have i1 : ((b0.val &&& 3) <<< 4) ||| (b1.val >>> 4) = b0.val % 4 * 16 + b1.val / 16 := by
    rw [land_3, Nat.shiftRight_eq_div_pow, Nat.shiftLeft_eq, lor_eq_add _ 4 _ (by omega)]
    omega
  have i2 : (b1.val &&& 15) <<< 2 = b1.val % 16 * 4 := by
    rw [land_15, Nat.shiftLeft_eq]
  have hq : (b0.val / 4 * 4096 + (b0.val % 4 * 16 + b1.val / 16) * 64 + b1.val % 16 * 4) / 4
      * 256 + 255 = b0.val * 65536 + b1.val * 256 + 255 := by omega
  have c2 := base64Char_ne_pad (b1.val % 16 * 4) (by omega)
  rw [specAlphabet_getD, specAlphabet_getD, specAlphabet_getD, i0, i1, i2, decGroups,
    decQuad_pad1 _ _ _ (by omega) (by omega) (by omega), hq]
  have e0 : toByte (((b0.val * 65536 + b1.val * 256 + 255) >>> 16) &&& 0xFF) = b0 := by
    apply Fin.ext
    simp only [toByte]
    rw [land_255, Nat.shiftRight_eq_div_pow]; omega
  have e1 : toByte (((b0.val * 65536 + b1.val * 256 + 255) >>> 8) &&& 0xFF) = b1 := by
    apply Fin.ext
    simp only [toByte]
    rw [land_255, Nat.shiftRight_eq_div_pow]; omega
  simp only [decGroups, decBytes, c2, ne_eq, not_false_eq_true, not_true_eq_false, if_true,
    if_false, e0, e1, Option.map_some', List.cons_append, List.nil_append, List.append_nil]

theorem decGroups_pad2 (b0 : Byte) :
    decGroups
      [specAlphabet.getD (b0.val >>> 2) (Char.ofNat 0),
       specAlphabet.getD ((b0.val &&& 3) <<< 4) (Char.ofNat 0), '=', '=']
      = some [b0] := by
  have h0 := b0.isLt
  have i0 : b0.val >>> 2 = b0.val / 4 := by rw [Nat.shiftRight_eq_div_pow]
  have i1 : (b0.val &&& 3) <<< 4 = b0.val % 4 * 16 := by
    rw [land_3, Nat.shiftLeft_eq]
  have hq : ((b0.val / 4 * 64 + b0.val % 4 * 16) / 4 * 256 + 255) / 4 * 256 + 255
      = b0.val * 65536 + 16383 := by omega
  rw [specAlphabet_getD, specAlphabet_getD, i0, i1, decGroups,
    decQuad_pad2 _ _ (by omega) (by omega), hq]
  have e0 : toByte (((b0.val * 65536 + 16383) >>> 16) &&& 0xFF) = b0 := by
    apply Fin.ext
    simp only [toByte]
    rw [land_255, Nat.shiftRight_eq_div_pow]; omega
  simp only [decGroups, decBytes, ne_eq, not_true_eq_false, if_false, e0, Option.map_some',
    List.append_nil]

/-- The loop of `Decode` on the reference encoding of a buffer: the buffer. -/
theorem decGroups_specRfc4648 (data : List Byte) :
    decGroups (specRfc4648 data) = some data := by
  induction data using encGroups.induct with
  | case1 b0 b1 b2 rest ih =>
    obtain ⟨e0, e1, e2⟩ := toByte_triple b0 b1 b2
    rw [specRfc4648, ← encQuad_encTriple, decGroups_encQuad _ (encTriple_lt b0 b1 b2), ih,
      e0, e1, e2]
    rfl
  | case2 b0 b1 => rw [specRfc4648, decGroups_pad1]
  | case3 b0 => rw [specRfc4648, decGroups_pad2]
  | case4 => rfl

theorem specRfc4648_length (data : List Byte) : (specRfc4648 data).length % 4 = 0 := by
  induction data using encGroups.induct with
  | case1 b0 b1 b2 rest ih =>
    simp only [specRfc4648, List.length_append, List.length_cons, List.length_nil]
    omega
  | case2 b0 b1 => simp [specRfc4648]
  | case3 b0 => simp [specRfc4648]
  | case4 => rfl

theorem encGroups_length (data : List Byte) :
    (encGroups data).length = 4 * ((data.length + 2) / 3) := by
  induction data using encGroups.induct with
  | case1 b0 b1 b2 rest ih =>
    simp only [encGroups, encQuad, List.length_append, List.length_cons, List.length_nil, ih]
    omega
  | case2 b0 b1 => simp [encGroups, encQuad]
  | case3 b0 => simp [encGroups, encQuad]
  | case4 => rfl

theorem zeroPadded_length (data : List Byte) :
    (zeroPadded data).length = 3 * ((data.length + 2) / 3) := by
  simp only [zeroPadded, List.length_append, List.length_replicate]
  omega

set_option maxRecDepth 100000 in
theorem CharToValue_alphabet :
    ∀ c ∈ specAlphabet, CharToValue c = specCharValue c ∧ CharToValue c < 64 ∧ c ≠ '=' := by
  decide

theorem CharToValue_spec (c : Char) (h : c ∈ specAlphabet ∨ c = '=') :
    CharToValue c = specCharValue c ∧ specCharValue c < 2 ^ 8 := by
  rcases h with h | rfl
  · obtain ⟨h1, h2, _⟩ := CharToValue_alphabet c h
    exact ⟨h1, by rw [← h1]; omega⟩
  · decide

theorem decChar_spec (c : Char) (quad : Nat) (h : c ∈ specAlphabet ∨ c = '=')
    (hq : quad < 2 ^ 20) :
    decChar c quad = some ((quad <<< 6) ||| specCharValue c) := by
  obtain ⟨h1, _⟩ := CharToValue_spec c h
  have hv : IsValidChar c = true := (IsValidChar_iff c).mpr h
  have hmod : (quad <<< 6) % U32_MOD = quad <<< 6 := by
    rw [U32_MOD, Nat.shiftLeft_eq]; omega
  rw [decChar_isSome c quad hv, hmod, h1]

/-- The inner loop of `Decode` on a quad of admitted characters: each character's value,
`0xFF` for `'='`, is OR-ed in after the shift. -/
theorem decQuad_spec (c0 c1 c2 c3 : Char) (h0 : c0 ∈ specAlphabet ∨ c0 = '=')
    (h1 : c1 ∈ specAlphabet ∨ c1 = '=') (h2 : c2 ∈ specAlphabet ∨ c2 = '=')
    (h3 : c3 ∈ specAlphabet ∨ c3 = '=') :
    decQuad c0 c1 c2 c3 = some (specQuadValue c0 c1 c2 c3) := by
  have v0 := (CharToValue_spec c0 h0).2
  have v1 := (CharToValue_spec c1 h1).2
  have v2 := (CharToValue_spec c2 h2).2
  have b2 : (specCharValue c0 <<< 6) ||| specCharValue c1 < 2 ^ 14 :=
    Nat.or_lt_two_pow (by rw [Nat.shiftLeft_eq]; omega) (by omega)
  have b3 : ((((specCharValue c0 <<< 6) ||| specCharValue c1) <<< 6) ||| specCharValue c2)
      < 2 ^ 20 :=
    Nat.or_lt_two_pow (by rw [Nat.shiftLeft_eq]; omega) (by omega)
  rw [decQuad, decChar_spec c0 0 h0 (by decide), Option.some_bind, Nat.zero_shiftLeft,
    Nat.zero_or, decChar_spec c1 _ h1 (by omega), Option.some_bind,
    decChar_spec c2 _ h2 (by omega), Option.some_bind, decChar_spec c3 _ h3 b3]
  rfl

theorem toByte_land (x : Nat) : toByte (x &&& 0xFF) = toByte x := by
  apply Fin.ext
  simp only [toByte]
  rw [land_255, Nat.mod_mod]

theorem decGroups_spec :
    ∀ (n : Nat) (l : List Char), l.length = 4 * n →
      (∀ c ∈ l, c ∈ specAlphabet ∨ c = '=') → decGroups l = some (specLooseDecode l) := by
  intro n
  induction n with
  | zero =>
    intro l hl _
    have hnil : l = [] := List.length_eq_zero.mp (by omega)
    subst hnil
    rfl
  | succ n ih =>
    intro l hl hall
    obtain ⟨c0, c1, c2, c3, rest, rfl⟩ := four_le_length l (by omega)
    have hr : rest.length = 4 * n := by simp only [List.length_cons] at hl; omega
    have hrest : ∀ c ∈ rest, c ∈ specAlphabet ∨ c = '=' := fun c hc =>
      hall c (by simp [hc])
    rw [decGroups, decQuad_spec c0 c1 c2 c3 (hall c0 (by simp)) (hall c1 (by simp))
      (hall c2 (by simp)) (hall c3 (by simp)), ih rest hr hrest]
    simp only [Option.map_some', specLooseDecode, decBytes, toByte_land, ne_eq, ite_not]

set_option maxRecDepth 100000 in
theorem specAlphabet_index : ∀ c ∈ specAlphabet, ∃ v : Fin 64, c = base64Char v.val := by
  decide

/-- The bytes that `Decode` returns for a quad of four alphabet characters, and for the
same quad with `'='` in place of the last one or the last two. -/
theorem Decode_quad_padding (v0 v1 v2 v3 : Nat) (h0 : v0 < 64) (h1 : v1 < 64) (h2 : v2 < 64)
    (h3 : v3 < 64) :
    Decode [base64Char v0, base64Char v1, base64Char v2, base64Char v3]
      = some [toByte ((v0 * 262144 + v1 * 4096 + v2 * 64 + v3) / 65536),
          toByte ((v0 * 262144 + v1 * 4096 + v2 * 64 + v3) / 256),
          toByte (v0 * 262144 + v1 * 4096 + v2 * 64 + v3)] ∧
    Decode [base64Char v0, base64Char v1, base64Char v2, '=']
      = some [toByte ((v0 * 262144 + v1 * 4096 + v2 * 64 + v3) / 65536),
          toByte ((v0 * 262144 + v1 * 4096 + v2 * 64 + v3) / 256)] ∧
    Decode [base64Char v0, base64Char v1, '=', '=']
      = some [toByte ((v0 * 262144 + v1 * 4096 + v2 * 64 + v3) / 65536)] := by
  have c2 := base64Char_ne_pad v2 h2
  have c3 := base64Char_ne_pad v3 h3
  refine ⟨?_, ?_, ?_⟩
  · rw [Decode_eq_decGroups _ (by simp), decGroups, decQuad_table v0 v1 v2 v3 h0 h1 h2 h3]
    have e0 : toByte (((v0 * 262144 + v1 * 4096 + v2 * 64 + v3) >>> 16) &&& 0xFF)
        = toByte ((v0 * 262144 + v1 * 4096 + v2 * 64 + v3) / 65536) := by
      rw [toByte_land, Nat.shiftRight_eq_div_pow]
    have e1 : toByte (((v0 * 262144 + v1 * 4096 + v2 * 64 + v3) >>> 8) &&& 0xFF)
        = toByte ((v0 * 262144 + v1 * 4096 + v2 * 64 + v3) / 256) := by
      rw [toByte_land, Nat.shiftRight_eq_div_pow]
    simp only [decGroups, decBytes, c2, c3, ne_eq, not_false_eq_true, if_true, e0, e1,
      toByte_land, Option.map_some', Option.getD_some, List.cons_append, List.nil_append,
      List.append_nil]
  · rw [Decode_eq_decGroups _ (by simp), decGroups, decQuad_pad1 v0 v1 v2 h0 h1 h2]
    have e0 : toByte ((((v0 * 4096 + v1 * 64 + v2) / 4 * 256 + 255) >>> 16) &&& 0xFF)
        = toByte ((v0 * 262144 + v1 * 4096 + v2 * 64 + v3) / 65536) := by
      rw [toByte_land, Nat.shiftRight_eq_div_pow]
      exact congrArg toByte (by omega)
    have e1 : toByte ((((v0 * 4096 + v1 * 64 + v2) / 4 * 256 + 255) >>> 8) &&& 0xFF)
        = toByte ((v0 * 262144 + v1 * 4096 + v2 * 64 + v3) / 256) := by
      rw [toByte_land, Nat.shiftRight_eq_div_pow]
      exact congrArg toByte (by omega)
    simp only [decGroups, decBytes, c2, ne_eq, not_false_eq_true, not_true_eq_false, if_true,
      if_false, e0, e1, Option.map_some', Option.getD_some, List.cons_append,
      List.nil_append, List.append_nil]
  · rw [Decode_eq_decGroups _ (by simp), decGroups, decQuad_pad2 v0 v1 h0 h1]
    have e0 : toByte (((((v0 * 64 + v1) / 4 * 256 + 255) / 4 * 256 + 255) >>> 16) &&& 0xFF)
        = toByte ((v0 * 262144 + v1 * 4096 + v2 * 64 + v3) / 65536) := by
      rw [toByte_land, Nat.shiftRight_eq_div_pow]
      exact congrArg toByte (by omega)
    simp only [decGroups, decBytes, ne_eq, not_true_eq_false, if_false, e0,
      Option.map_some', Option.getD_some, List.append_nil]

end DHBase64Utils

namespace DHTLVUtils

theorem getD_of_drop {α : Type} (l t : List α) (pos k : Nat) (d : α)
    (h : l.drop pos = t) : l.getD (pos + k) d = t.getD k d := by
  subst h
  simp only [List.getD_eq_getElem?_getD, List.getElem?_drop]

theorem length_of_drop {α : Type} (l t : List α) (pos : Nat) (a : α)
    (h : l.drop pos = a :: t) : l.length = pos + t.length + 1 := by
  have h1 : (l.drop pos).length = t.length + 1 := by rw [h]; rfl
  rw [List.length_drop] at h1
  omega

theorem wireLength_eq (h2 h3 h4 h5 : Byte) :
    wireLength h2 h3 h4 h5
      = h2.val * 16777216 + h3.val * 65536 + h4.val * 256 + h5.val := by
  have b2 := h2.isLt
  have b3 := h3.isLt
  have b4 := h4.isLt
  have b5 := h5.isLt
  have e2 : (h2.val <<< 24) % 2 ^ 32 = h2.val * 2 ^ 24 := by rw [Nat.shiftLeft_eq]; omega
  have e3 : (h3.val <<< 16) % 2 ^ 32 = h3.val * 65536 := by rw [Nat.shiftLeft_eq]; omega
  have e4 : (h4.val <<< 8) % 2 ^ 32 = h4.val * 256 := by rw [Nat.shiftLeft_eq]; omega
  have f1 : h2.val * 2 ^ 24 + h3.val * 65536 = (h2.val * 256 + h3.val) * 2 ^ 16 := by omega
  have f2 : (h2.val * 256 + h3.val) * 2 ^ 16 + h4.val * 256
      = (h2.val * 65536 + h3.val * 256 + h4.val) * 2 ^ 8 := by omega
  unfold wireLength U32_MOD
  rw [e2, e3, e4, lor_eq_add h2.val 24 _ (by omega), f1, lor_eq_add _ 16 _ (by omega), f2,
    lor_eq_add _ 8 _ (by omega)]
  omega

theorem wireLength_lt (h2 h3 h4 h5 : Byte) : wireLength h2 h3 h4 h5 < 2 ^ 32 := by
  have b2 := h2.isLt
  have b3 := h3.isLt
  have b4 := h4.isLt
  have b5 := h5.isLt
  rw [wireLength_eq]; omega

/-- One pass of the loop of `DecodeFromBinary` over a buffer of at most 131072 bytes
that holds a whole header at `pos`. -/
theorem DecodeLoop_step (binary : List Byte) (hsz : binary.length ≤ MAX_TLV_DATA_LENGTH)
    (fuel pos : Nat) (acc : List TLVItem) (h0 h1 h2 h3 h4 h5 : Byte) (tail : List Byte)
    (hd : binary.drop pos = h0 :: h1 :: h2 :: h3 :: h4 :: h5 :: tail) :
    DecodeLoop binary (fuel + 1) pos acc =
      if tail.length < wireLength h2 h3 h4 h5 then some (ERR_TLV_INVALID_LENGTH, acc)
      else if MAX_TLV_VALUE_LENGTH < wireLength h2 h3 h4 h5 then
        some (ERR_TLV_VALUE_TOO_LARGE, acc)
      else DecodeLoop binary fuel (pos + 6 + wireLength h2 h3 h4 h5)
        (acc ++ [⟨wireType h0 h1, tail.take (wireLength h2 h3 h4 h5)⟩]) := by
  have hlen : binary.length = pos + 6 + tail.length := by
    have := length_of_drop binary _ pos _ hd
    simp only [List.length_cons] at this
    omega
  have hlt := wireLength_lt h2 h3 h4 h5
  have hmax : MAX_TLV_DATA_LENGTH = 131072 := rfl
  have g0 : binary.getD pos 0 = h0 := by
    have := getD_of_drop binary _ pos 0 0 hd
    simpa using this
  have g1 : binary.getD (pos + 1) 0 = h1 := getD_of_drop binary _ pos 1 0 hd
  have g2 : binary.getD (pos + 2) 0 = h2 := getD_of_drop binary _ pos 2 0 hd
  have g3 : binary.getD (pos + 2 + 1) 0 = h3 := getD_of_drop binary _ pos 3 0 hd
  have g4 : binary.getD (pos + 2 + 2) 0 = h4 := getD_of_drop binary _ pos 4 0 hd
  have g5 : binary.getD (pos + 2 + 3) 0 = h5 := getD_of_drop binary _ pos 5 0 hd
  have hguard : pos + (2 + 4) ≤ binary.length := by omega
  have hmod : (pos + 2 + 4 + wireLength h2 h3 h4 h5) % 2 ^ 64
      = pos + 6 + wireLength h2 h3 h4 h5 := by omega
  have hdrop : binary.drop (pos + 2 + 4) = tail := by
    have : binary.drop (pos + 6) = List.drop 6 (binary.drop pos) := by
      rw [List.drop_drop]
    rw [show pos + 2 + 4 = pos + 6 from rfl, this, hd]
    rfl
  rw [DecodeLoop]
  simp only [HEADER_BYTES, TYPE_BYTES, LENGTH_BYTES, SIZE_MOD, hguard, if_true, g0, g1, g2,
    g3, g4, g5, hdrop]
  rw [show ((h2.val <<< 24) % U32_MOD ||| (h3.val <<< 16) % U32_MOD |||
      (h4.val <<< 8) % U32_MOD ||| h5.val) = wireLength h2 h3 h4 h5 from rfl,
    show toU16 ((h0.val <<< 8) ||| h1.val) = wireType h0 h1 from rfl, hmod]
  by_cases c1 : tail.length < wireLength h2 h3 h4 h5
  · rw [if_pos c1, if_pos (by omega)]
  · rw [if_neg c1, if_neg (by omega)]
    by_cases c2 : MAX_TLV_VALUE_LENGTH < wireLength h2 h3 h4 h5
    · rw [if_pos c2, if_pos c2]
    · rw [if_neg c2, if_neg c2]
      by_cases c3 : wireLength h2 h3 h4 h5 > 0
      · simp only [c3, if_true]
      · have hz : wireLength h2 h3 h4 h5 = 0 := by omega
        simp only [hz, gt_iff_lt, Nat.lt_irrefl, if_false, List.take_zero, Nat.add_zero]

theorem EncodeItem_eq (acc : List Byte) (item : TLVItem) :
    EncodeItem acc item = acc ++ encRecord item := by
  simp only [EncodeItem, encRecord, List.append_assoc, List.nil_append, List.cons_append]

theorem encRecord_eq (item : TLVItem) :
    encRecord item = header item.type item.value.length ++ item.value := by
  simp only [encRecord, EncodeItem, header, List.nil_append, List.cons_append]

theorem foldl_EncodeItem (tlvList : List TLVItem) :
    ∀ acc : List Byte, tlvList.foldl EncodeItem acc = acc ++ encRecords tlvList := by
  induction tlvList with
  | nil => intro acc; simp [encRecords]
  | cons item rest ih =>
    intro acc
    rw [List.foldl_cons, ih, EncodeItem_eq, encRecords, List.append_assoc]

theorem foldl_length (tlvList : List TLVItem) :
    ∀ acc : Nat,
      tlvList.foldl (fun totalLen item => totalLen + (HEADER_BYTES + item.value.length)) acc
        = acc + specLength tlvList := by
  induction tlvList with
  | nil => intro acc; simp [specLength]
  | cons item rest ih =>
    intro acc
    rw [List.foldl_cons, ih, specLength]
    simp only [HEADER_BYTES, TYPE_BYTES, LENGTH_BYTES]
    omega

theorem GetEncodedLength_eq (tlvList : List TLVItem) :
    GetEncodedLength tlvList = specLength tlvList := by
  rw [GetEncodedLength, foldl_length]; omega

theorem header_length (t : Fin 65536) (n : Nat) : (header t n).length = 6 := rfl

theorem encRecords_length (tlvList : List TLVItem) :
    (encRecords tlvList).length = specLength tlvList := by
  induction tlvList with
  | nil => rfl
  | cons item rest ih =>
    rw [encRecords, specLength, List.length_append, ih, encRecord_eq, List.length_append,
      header_length]

/-- The early return of `EncodeToBinary` on a total size 0 agrees with its loop. -/
theorem EncodeToBinary_eq (tlvList : List TLVItem) :
    EncodeToBinary tlvList = encRecords tlvList := by
  unfold EncodeToBinary
  by_cases h : GetEncodedLength tlvList = 0
  · simp only [h, if_true]
    cases tlvList with
    | nil => rfl
    | cons item rest =>
      rw [GetEncodedLength_eq, specLength] at h
      omega
  · simp only [h, if_false]
    rw [foldl_EncodeItem, List.nil_append]

theorem wireType_header (t : Fin 65536) :
    wireType (toByte ((t.val >>> 8) &&& 0xFF)) (toByte (t.val &&& 0xFF)) = t := by
  have ht := t.isLt
  apply Fin.ext
  simp only [wireType, toU16, toByte]
  rw [land_255, land_255, Nat.shiftRight_eq_div_pow, Nat.shiftLeft_eq,
    lor_eq_add _ 8 _ (by omega)]
  omega

theorem wireLength_header (n : Nat) (hn : n < 2 ^ 32) :
    wireLength (toByte (((n % U32_MOD) >>> 24) &&& 0xFF))
      (toByte (((n % U32_MOD) >>> 16) &&& 0xFF)) (toByte (((n % U32_MOD) >>> 8) &&& 0xFF))
      (toByte ((n % U32_MOD) &&& 0xFF)) = n := by
  rw [wireLength_eq]
  simp only [toByte, U32_MOD]
  rw [land_255, land_255, land_255, land_255, Nat.shiftRight_eq_div_pow,
    Nat.shiftRight_eq_div_pow, Nat.shiftRight_eq_div_pow]
  omega

/-- The header that `EncodeToBinary` would write for the decoded type and length is
the header that was read. -/
theorem header_wire (h0 h1 h2 h3 h4 h5 : Byte) :
    header (wireType h0 h1) (wireLength h2 h3 h4 h5) = [h0, h1, h2, h3, h4, h5] := by
  have b0 := h0.isLt
  have b1 := h1.isLt
  have b2 := h2.isLt
  have b3 := h3.isLt
  have b4 := h4.isLt
  have b5 := h5.isLt
  have et : (wireType h0 h1).val = h0.val * 256 + h1.val := by
    simp only [wireType, toU16]
    rw [Nat.shiftLeft_eq, lor_eq_add _ 8 _ (by omega)]
    omega
  have c0 : toByte (((wireType h0 h1).val >>> 8) &&& 0xFF) = h0 := by
    apply Fin.ext
    simp only [toByte, et]
    rw [land_255, Nat.shiftRight_eq_div_pow]; omega
  have c1 : toByte ((wireType h0 h1).val &&& 0xFF) = h1 := by
    apply Fin.ext
    simp only [toByte, et]
    rw [land_255]; omega
  have c2 : toByte (((wireLength h2 h3 h4 h5 % U32_MOD) >>> 24) &&& 0xFF) = h2 := by
    apply Fin.ext
    simp only [toByte, wireLength_eq, U32_MOD]
    rw [land_255, Nat.shiftRight_eq_div_pow]; omega
  have c3 : toByte (((wireLength h2 h3 h4 h5 % U32_MOD) >>> 16) &&& 0xFF) = h3 := by
    apply Fin.ext
    simp only [toByte, wireLength_eq, U32_MOD]
    rw [land_255, Nat.shiftRight_eq_div_pow]; omega
  have c4 : toByte (((wireLength h2 h3 h4 h5 % U32_MOD) >>> 8) &&& 0xFF) = h4 := by
    apply Fin.ext
    simp only [toByte, wireLength_eq, U32_MOD]
    rw [land_255, Nat.shiftRight_eq_div_pow]; omega
  have c5 : toByte ((wireLength h2 h3 h4 h5 % U32_MOD) &&& 0xFF) = h5 := by
    apply Fin.ext
    simp only [toByte, wireLength_eq, U32_MOD]
    rw [land_255]; omega
  rw [header, c0, c1, c2, c3, c4, c5]

theorem drop_of_append {α : Type} (l a b : List α) (pos : Nat) (h : l.drop pos = a ++ b) :
    l.drop (pos + a.length) = b := by
  rw [← List.drop_drop, h, List.drop_left]

/-- The loop of `DecodeFromBinary` outside its body: fewer than six bytes remain. -/
theorem DecodeLoop_end (binary : List Byte) (fuel pos : Nat) (acc : List TLVItem)
    (h : binary.length < pos + 6) : DecodeLoop binary fuel pos acc = some (0, acc) := by
  have hg : ¬ pos + HEADER_BYTES ≤ binary.length := by
    simp only [HEADER_BYTES, TYPE_BYTES, LENGTH_BYTES]; omega
  cases fuel with
  | zero => rw [DecodeLoop, if_neg hg]
  | succ f => rw [DecodeLoop]; simp only [hg, if_false]

/-- One pass of the loop over the record of an item whose value has at most 65536
bytes. -/
theorem DecodeLoop_record (binary : List Byte) (hsz : binary.length ≤ MAX_TLV_DATA_LENGTH)
    (fuel pos : Nat) (acc : List TLVItem) (item : TLVItem) (rest : List Byte)
    (hv : item.value.length ≤ MAX_TLV_VALUE_LENGTH)
    (hd : binary.drop pos = encRecord item ++ rest) :
    DecodeLoop binary (fuel + 1) pos acc
      = DecodeLoop binary fuel (pos + (encRecord item).length) (acc ++ [item]) := by
  have hmax : MAX_TLV_VALUE_LENGTH = 65536 := rfl
  have hn : item.value.length < 2 ^ 32 := by omega
  rw [encRecord_eq] at hd ⊢
  simp only [header, List.cons_append, List.nil_append] at hd
  rw [DecodeLoop_step binary hsz fuel pos acc _ _ _ _ _ _ _ hd, wireLength_header _ hn,
    wireType_header]
  have hl : ¬ (item.value ++ rest).length < item.value.length := by
    simp only [List.length_append]; omega
  rw [if_neg hl, if_neg (by omega), List.take_left, List.length_append, header_length,
    Nat.add_assoc]

/-- The loop of `DecodeFromBinary` over the records of a list: one pass per item. -/
theorem DecodeLoop_records (binary : List Byte) (hsz : binary.length ≤ MAX_TLV_DATA_LENGTH)
    (tlvList : List TLVItem) :
    ∀ (pos : Nat) (acc : List TLVItem) (fuel : Nat) (rest : List Byte),
      binary.drop pos = encRecords tlvList ++ rest →
      (∀ item ∈ tlvList, item.value.length ≤ MAX_TLV_VALUE_LENGTH) →
      DecodeLoop binary (fuel + tlvList.length) pos acc
        = DecodeLoop binary fuel (pos + (encRecords tlvList).length) (acc ++ tlvList) := by
  induction tlvList with
  | nil => intro pos acc fuel rest _ _; simp [encRecords]
  | cons item items ih =>
    intro pos acc fuel rest hd hv
    rw [encRecords, List.append_assoc] at hd
    have hv1 : item.value.length ≤ MAX_TLV_VALUE_LENGTH := hv item (List.mem_cons_self _ _)
    have hv2 : ∀ it ∈ items, it.value.length ≤ MAX_TLV_VALUE_LENGTH :=
      fun it hit => hv it (List.mem_cons_of_mem _ hit)
    have hfuel : fuel + (item :: items).length = (fuel + items.length) + 1 := by
      simp only [List.length_cons]; omega
    rw [hfuel, DecodeLoop_record binary hsz _ pos acc item _ hv1 hd,
      ih _ _ fuel rest (drop_of_append binary _ _ pos hd) hv2, encRecords,
      List.length_append, List.append_assoc, Nat.add_assoc]
    rfl

theorem length_le_specLength (tlvList : List TLVItem) :
    tlvList.length ≤ specLength tlvList := by
  induction tlvList with
  | nil => simp [specLength]
  | cons item rest ih => simp only [List.length_cons, specLength]; omega

theorem six_le_length {α : Type} (l : List α) (h : 6 ≤ l.length) :
    ∃ h0 h1 h2 h3 h4 h5 tail, l = h0 :: h1 :: h2 :: h3 :: h4 :: h5 :: tail := by
  rcases l with _ | ⟨h0, _ | ⟨h1, _ | ⟨h2, _ | ⟨h3, _ | ⟨h4, _ | ⟨h5, tail⟩⟩⟩⟩⟩⟩
  all_goals first
    | exact ⟨h0, h1, h2, h3, h4, h5, tail, rfl⟩
    | (simp only [List.length_cons, List.length_nil] at h; omega)

/-- What the loop of `DecodeFromBinary` returns, for a buffer of at most 131072 bytes and
enough fuel: the items appended are those whose records precede, in the buffer, either a
remainder of fewer than six bytes (status 0) or the header that is refused. -/
theorem DecodeLoop_spec (binary : List Byte) (hsz : binary.length ≤ MAX_TLV_DATA_LENGTH) :
    ∀ (fuel pos : Nat) (acc : List TLVItem), binary.length ≤ pos + fuel →
      ∃ st items rest,
        DecodeLoop binary fuel pos acc = some (st, acc ++ items) ∧
        binary.drop pos = encRecords items ++ rest ∧
        (∀ item ∈ items, item.value.length ≤ MAX_TLV_VALUE_LENGTH) ∧
        ((st = 0 ∧ rest.length < 6) ∨
          ∃ h0 h1 h2 h3 h4 h5 tail, rest = h0 :: h1 :: h2 :: h3 :: h4 :: h5 :: tail ∧
            ((st = ERR_TLV_INVALID_LENGTH ∧ tail.length < wireLength h2 h3 h4 h5) ∨
             (st = ERR_TLV_VALUE_TOO_LARGE ∧ wireLength h2 h3 h4 h5 ≤ tail.length ∧
                MAX_TLV_VALUE_LENGTH < wireLength h2 h3 h4 h5))) := by
  intro fuel
  induction fuel with
  | zero =>
    intro pos acc hf
    refine ⟨0, [], binary.drop pos, ?_, by simp [encRecords], by simp, Or.inl ⟨rfl, ?_⟩⟩
    · rw [DecodeLoop_end binary 0 pos acc (by omega), List.append_nil]
    · rw [List.length_drop]; omega
  | succ f ih =>
    intro pos acc hf
    by_cases hend : binary.length < pos + 6
    · refine ⟨0, [], binary.drop pos, ?_, by simp [encRecords], by simp, Or.inl ⟨rfl, ?_⟩⟩
      · rw [DecodeLoop_end binary _ pos acc hend, List.append_nil]
      · rw [List.length_drop]; omega
    · obtain ⟨h0, h1, h2, h3, h4, h5, tail, hd⟩ :=
        six_le_length (binary.drop pos) (by rw [List.length_drop]; omega)
      rw [DecodeLoop_step binary hsz f pos acc h0 h1 h2 h3 h4 h5 tail hd]
      by_cases c1 : tail.length < wireLength h2 h3 h4 h5
      · refine ⟨ERR_TLV_INVALID_LENGTH, [], binary.drop pos, ?_, by simp [encRecords],
          by simp, Or.inr ⟨h0, h1, h2, h3, h4, h5, tail, hd, Or.inl ⟨rfl, c1⟩⟩⟩
        rw [if_pos c1, List.append_nil]
      · by_cases c2 : MAX_TLV_VALUE_LENGTH < wireLength h2 h3 h4 h5
        · refine ⟨ERR_TLV_VALUE_TOO_LARGE, [], binary.drop pos, ?_, by simp [encRecords],
            by simp, Or.inr ⟨h0, h1, h2, h3, h4, h5, tail, hd, Or.inr ⟨rfl, by omega, c2⟩⟩⟩
          rw [if_neg c1, if_pos c2, List.append_nil]
        · rw [if_neg c1, if_neg c2]
          have hlen := length_of_drop binary _ pos _ hd
          simp only [List.length_cons] at hlen
          obtain ⟨st, items, rest, hrun, hdrop, hall, hst⟩ :=
            ih (pos + 6 + wireLength h2 h3 h4 h5)
              (acc ++ [⟨wireType h0 h1, tail.take (wireLength h2 h3 h4 h5)⟩]) (by omega)
          have htake : (tail.take (wireLength h2 h3 h4 h5)).length = wireLength h2 h3 h4 h5 := by
            rw [List.length_take]; omega
          have hdrop2 : binary.drop (pos + 6 + wireLength h2 h3 h4 h5)
              = tail.drop (wireLength h2 h3 h4 h5) := by
            rw [Nat.add_assoc, ← List.drop_drop, hd, ← List.drop_drop]
            rfl
          refine ⟨st, ⟨wireType h0 h1, tail.take (wireLength h2 h3 h4 h5)⟩ :: items, rest,
            ?_, ?_, ?_, hst⟩
          · rw [hrun, List.append_assoc]; rfl
          · rw [encRecords, encRecord_eq, htake, header_wire, hd, List.append_assoc,
              List.append_assoc, ← hdrop, hdrop2, List.take_append_drop]
            rfl
          · intro item hitem
            rcases List.mem_cons.mp hitem with rfl | hmem
            · show (tail.take (wireLength h2 h3 h4 h5)).length ≤ MAX_TLV_VALUE_LENGTH
              rw [htake]; omega
            · exact hall item hmem

end DHTLVUtils

/-! ## The claims -/

namespace DHBase64Utils

/-- C1 (round trip `Decode(Encode(b)) = b`), evaluated at the one-byte buffer `[0x4D]`:
`Encode` returns `"TQAA"`, without padding, and `Decode` of that string is the three
bytes `4D 00 00`, not the buffer that was encoded. -/
theorem Encode_Decode_one_byte :
    Encode [0x4D] = some ['T', 'Q', 'A', 'A'] ∧
    Decode ['T', 'Q', 'A', 'A'] = some [0x4D, 0x00, 0x00] ∧
    (Encode [0x4D]).bind Decode ≠ some [0x4D] := by
  decide

/-- C5 (padding of a last group of one or two bytes), evaluated at `[0x4D]` and at
`[0x4D, 0x61]`: `Encode` returns `"TQAA"` and `"TWEA"`, where the claim has `"TQ=="`
and `"TWE="`; and no output of `Encode`, for any buffer, holds a `'='`. -/
theorem Encode_short_group_unpadded :
    Encode [0x4D] = some ['T', 'Q', 'A', 'A'] ∧
    Encode [0x4D, 0x61] = some ['T', 'W', 'E', 'A'] ∧
    (∀ data : List Byte, ∃ out, Encode data = some out ∧ '=' ∉ out) := by
  refine ⟨by decide, by decide, fun data => ⟨encGroups data, Encode_eq_encGroups data, ?_⟩⟩
  intro hmem
  have := encGroups_mem data _ hmem
  revert this
  decide

/-- C6 (whole groups): for a buffer whose length is a multiple of 3, `Encode` returns
the characters of the specification, group by group; the output has length `4 * (n / 3)`
and holds no `'='`; `Encode [0x4D, 0x61, 0x6E] = "TWFu"` and `Encode [] = ""`. -/
theorem Encode_full_groups (data : List Byte) (h : data.length % 3 = 0) :
    (∃ out, Encode data = some out ∧ out = specFullGroups data ∧
      out.length = 4 * (data.length / 3) ∧ '=' ∉ out) ∧
    Encode [0x4D, 0x61, 0x6E] = some "TWFu".toList ∧
    Encode [] = some "".toList := by
  refine ⟨⟨specFullGroups data, ?_, rfl, specFullGroups_length data h, ?_⟩, by decide,
    by decide⟩
  · rw [Encode_eq_encGroups, encGroups_eq_specFullGroups data h]
  · intro hmem
    rw [← encGroups_eq_specFullGroups data h] at hmem
    have := encGroups_mem data _ hmem
    revert this
    decide

theorem Encode_full_groups_witness :
    (∃ out, Encode [0x4D, 0x61, 0x6E, 0x00, 0xFF, 0x10] = some out ∧
      out = specFullGroups [0x4D, 0x61, 0x6E, 0x00, 0xFF, 0x10] ∧
      out.length = 4 * (([0x4D, 0x61, 0x6E, 0x00, 0xFF, 0x10] : List Byte).length / 3) ∧
      '=' ∉ out) ∧
    Encode [0x4D, 0x61, 0x6E] = some "TWFu".toList ∧
    Encode [] = some "".toList :=
  Encode_full_groups [0x4D, 0x61, 0x6E, 0x00, 0xFF, 0x10] (by decide)

/-- C11 (malformed input): `Decode` returns the empty buffer on every string whose length
is not a multiple of 4 and on every string that holds a character that is neither of the
alphabet nor `'='`, whatever quads precede that character. -/
theorem Decode_malformed (encoded : List Char) :
    (encoded.length % 4 ≠ 0 → Decode encoded = some []) ∧
    ((∃ c ∈ encoded, c ∉ specAlphabet ∧ c ≠ '=') → Decode encoded = some []) := by
  constructor
  · intro h4
    apply Decode_of_not_IsValid
    cases hv : IsValid encoded with
    | false => rfl
    | true => exact absurd ((IsValid_eq_true_iff encoded).mp hv).2.1 h4
  · rintro ⟨c, hc, hna, hne⟩
    apply Decode_of_not_IsValid
    cases hv : IsValid encoded with
    | false => rfl
    | true =>
      have := (IsValidChar_iff c).mp (((IsValid_eq_true_iff encoded).mp hv).2.2 c hc)
      rcases this with h | h
      · exact absurd h hna
      · exact absurd h hne

theorem Decode_malformed_witness :
    ("TWF".toList.length % 4 ≠ 0 ∧ Decode "TWF".toList = some []) ∧
    ((∃ c ∈ "TWFuTW*u".toList, c ∉ specAlphabet ∧ c ≠ '=') ∧
      Decode "TWFuTW*u".toList = some []) :=
  ⟨⟨by decide, (Decode_malformed "TWF".toList).1 (by decide)⟩,
    ⟨by decide, (Decode_malformed "TWFuTW*u".toList).2 (by decide)⟩⟩

/-- C12 (characterisation of `IsValid`): `IsValid` is true exactly on the strings that
are not empty, have a length that is a multiple of 4, and hold only characters of the
alphabet `A-Z`, `a-z`, `0-9`, `+`, `/` and `'='`. -/
theorem IsValid_iff (encoded : List Char) :
    IsValid encoded = true ↔
      (encoded ≠ [] ∧ encoded.length % 4 = 0 ∧
        ∀ c ∈ encoded, c ∈ specAlphabet ∨ c = '=') := by
  rw [IsValid_eq_true_iff]
  constructor
  · rintro ⟨h1, h2, h3⟩
    exact ⟨h1, h2, fun c hc => (IsValidChar_iff c).mp (h3 c hc)⟩
  · rintro ⟨h1, h2, h3⟩
    exact ⟨h1, h2, fun c hc => (IsValidChar_iff c).mpr (h3 c hc)⟩

/-- C16 (`Decode` inverts RFC 4648): `Decode` of the reference encoding of a buffer is
the buffer; for a quad of four alphabet characters that decodes to the bytes `x y z`, the
quad with `'='` in place of its last character decodes to `x y`, and with `"=="` in place
of its last two characters to `x`; `Decode "TWFu" = [0x4D, 0x61, 0x6E]`. -/
theorem Decode_specRfc4648 (data : List Byte) :
    Decode (specRfc4648 data) = some data ∧
    (∀ c0 ∈ specAlphabet, ∀ c1 ∈ specAlphabet, ∀ c2 ∈ specAlphabet, ∀ c3 ∈ specAlphabet,
      ∃ x y z, Decode [c0, c1, c2, c3] = some [x, y, z] ∧
        Decode [c0, c1, c2, '='] = some [x, y] ∧
        Decode [c0, c1, '=', '='] = some [x]) ∧
    Decode "TWFu".toList = some [0x4D, 0x61, 0x6E] ∧
    Decode "TWE=".toList = some [0x4D, 0x61] ∧
    Decode "TQ==".toList = some [0x4D] := by
  refine ⟨?_, ?_, by decide, by decide, by decide⟩
  · rw [Decode_eq_decGroups _ (specRfc4648_length data), decGroups_specRfc4648]
    rfl
  · intro c0 h0 c1 h1 c2 h2 c3 h3
    obtain ⟨v0, rfl⟩ := specAlphabet_index c0 h0
    obtain ⟨v1, rfl⟩ := specAlphabet_index c1 h1
    obtain ⟨v2, rfl⟩ := specAlphabet_index c2 h2
    obtain ⟨v3, rfl⟩ := specAlphabet_index c3 h3
    obtain ⟨e1, e2, e3⟩ := Decode_quad_padding v0.val v1.val v2.val v3.val v0.isLt v1.isLt
      v2.isLt v3.isLt
    exact ⟨_, _, _, e1, e2, e3⟩

/-- C17 as stated (`'='` decodes as zero bits) fails: `Decode "=AAA"` is `FC 00 00`, not
the `00 00 00` of `Decode "AAAA"`, and `Decode "AA=A"` is `00 C0` where the quad with
`'='` replaced by `'A'` gives `00` as its last byte. -/
theorem Decode_pad_not_zero_bits :
    Decode "=AAA".toList = some [0xFC, 0x00, 0x00] ∧
    Decode "AAAA".toList = some [0x00, 0x00, 0x00] ∧
    Decode "AA=A".toList = some [0x00, 0xC0] ∧
    CharToValue '=' = 0xFF := by
  decide

/-- C17 as amended: on a string whose length is a multiple of 4 and whose characters are
all of the alphabet or `'='`, `Decode` builds the value of each quad by OR-ing in, after a
shift by six bits, the index of each alphabet character and the value `0xFF` for each
`'='`, at any of the four positions and in any quad, and returns the bytes of
`specLooseDecode`; so the first byte for the quad `"=AAA"` is `0xFC`. -/
theorem Decode_eq_specLooseDecode (encoded : List Char) (h4 : encoded.length % 4 = 0)
    (hall : ∀ c ∈ encoded, c ∈ specAlphabet ∨ c = '=') :
    Decode encoded = some (specLooseDecode encoded) ∧
    specCharValue '=' = 0xFF ∧
    Decode "=AAA".toList = some [0xFC, 0x00, 0x00] := by
  refine ⟨?_, by decide, by decide⟩
  rw [Decode_eq_decGroups encoded h4,
    decGroups_spec (encoded.length / 4) encoded (by omega) hall]
  rfl

theorem Decode_eq_specLooseDecode_witness :
    "QUI=TQ==".toList.length % 4 = 0 ∧
    (∀ c ∈ "QUI=TQ==".toList, c ∈ specAlphabet ∨ c = '=') ∧
    (Decode "QUI=TQ==".toList = some (specLooseDecode "QUI=TQ==".toList) ∧
      specCharValue '=' = 0xFF ∧
      Decode "=AAA".toList = some [0xFC, 0x00, 0x00]) :=
  ⟨by decide, by decide, Decode_eq_specLooseDecode "QUI=TQ==".toList (by decide) (by decide)⟩

/-- C18 (shape of `Decode` after `Encode`): for a buffer of `n` bytes, `Encode` returns a
string of `4 * ceil(n / 3)` characters of the alphabet, and `Decode` of it is the buffer
followed by `(3 - n % 3) % 3` zero bytes, of length `3 * ceil(n / 3)`. -/
theorem Decode_Encode_shape (data : List Byte) :
    ∃ s r, Encode data = some s ∧ Decode s = some r ∧
      r = data ++ List.replicate ((3 - data.length % 3) % 3) (0x00 : Byte) ∧
      r.length = 3 * ((data.length + 2) / 3) ∧
      (∃ t, r = data ++ t) ∧
      s.length = 4 * ((data.length + 2) / 3) ∧
      ∀ c ∈ s, c ∈ specAlphabet := by
  have hlen := encGroups_length data
  refine ⟨encGroups data, zeroPadded data, Encode_eq_encGroups data, ?_, rfl,
    zeroPadded_length data, ⟨_, rfl⟩, hlen, encGroups_mem data⟩
  rw [Decode_eq_decGroups _ (by omega), decGroups_encGroups]
  rfl

/-- C19 (`IsValid` and `Decode` accept the same strings): `IsValid` is true exactly when
`Decode` returns a buffer that is not empty; a string that passes `IsValid` is decoded to
at least one byte per quad, and a string that fails it to the empty buffer. -/
theorem IsValid_iff_Decode_nonempty (encoded : List Char) :
    (IsValid encoded = true ↔ ∃ r, Decode encoded = some r ∧ r ≠ []) ∧
    (IsValid encoded = true →
      ∃ r, Decode encoded = some r ∧ encoded.length / 4 ≤ r.length) ∧
    (IsValid encoded = false → Decode encoded = some []) := by
  refine ⟨⟨?_, ?_⟩, ?_, Decode_of_not_IsValid encoded⟩
  · intro h
    obtain ⟨r, h1, _, h3⟩ := Decode_of_IsValid encoded h
    exact ⟨r, h1, h3⟩
  · rintro ⟨r, h1, h2⟩
    cases hv : IsValid encoded with
    | true => rfl
    | false =>
      rw [Decode_of_not_IsValid encoded hv] at h1
      simp only [Option.some.injEq] at h1
      exact absurd h1.symm h2
  · intro h
    obtain ⟨r, h1, h2, _⟩ := Decode_of_IsValid encoded h
    exact ⟨r, h1, h2⟩

theorem IsValid_iff_Decode_nonempty_witness :
    (IsValid "TQ==TWFu".toList = true ∧
      ∃ r, Decode "TQ==TWFu".toList = some r ∧ "TQ==TWFu".toList.length / 4 ≤ r.length) ∧
    (IsValid "TWFuTW*u".toList = false ∧ Decode "TWFuTW*u".toList = some []) :=
  ⟨⟨by decide, (IsValid_iff_Decode_nonempty "TQ==TWFu".toList).2.1 (by decide)⟩,
    ⟨by decide, (IsValid_iff_Decode_nonempty "TWFuTW*u".toList).2.2 (by decide)⟩⟩

end DHBase64Utils

namespace DHTLVUtils

theorem specLength_eq_sum (tlvList : List TLVItem) :
    specLength tlvList = (tlvList.map (fun item => 6 + item.value.length)).sum := by
  induction tlvList with
  | nil => rfl
  | cons item rest ih => rw [specLength, List.map_cons, List.sum_cons, ih]

theorem header_map_val (t : Fin 65536) (n : Nat) (hn : n < 2 ^ 32) :
    (header t n).map Fin.val =
      [t.val >>> 8, t.val &&& 0xFF, n >>> 24, (n >>> 16) &&& 0xFF, (n >>> 8) &&& 0xFF,
        n &&& 0xFF] := by
  have ht := t.isLt
  simp only [header, toByte, U32_MOD, List.map_cons, List.map_nil]
  rw [land_255, land_255, land_255, land_255, land_255, land_255, land_255, land_255,
    land_255, Nat.shiftRight_eq_div_pow, Nat.shiftRight_eq_div_pow,
    Nat.shiftRight_eq_div_pow, Nat.shiftRight_eq_div_pow, Nat.shiftRight_eq_div_pow,
    Nat.shiftRight_eq_div_pow, Nat.shiftRight_eq_div_pow]
  have e0 : t.val / 2 ^ 8 % 256 % 256 = t.val / 2 ^ 8 := by omega
  have e1 : t.val % 256 % 256 = t.val % 256 := by omega
  have e2 : n % 2 ^ 32 / 2 ^ 24 % 256 % 256 = n / 2 ^ 24 := by omega
  have e3 : n % 2 ^ 32 / 2 ^ 16 % 256 % 256 = n / 2 ^ 16 % 256 := by omega
  have e4 : n % 2 ^ 32 / 2 ^ 8 % 256 % 256 = n / 2 ^ 8 % 256 := by omega
  have e5 : n % 2 ^ 32 % 256 % 256 = n % 256 := by omega
  rw [e0, e1, e2, e3, e4, e5]

theorem encRecords_map_val (tlvList : List TLVItem)
    (h : ∀ item ∈ tlvList, item.value.length < 2 ^ 32) :
    (encRecords tlvList).map Fin.val = specLayout tlvList := by
  induction tlvList with
  | nil => rfl
  | cons item rest ih =>
    have h1 := h item (List.mem_cons_self _ _)
    have h2 : ∀ it ∈ rest, it.value.length < 2 ^ 32 :=
      fun it hit => h it (List.mem_cons_of_mem _ hit)
    rw [encRecords, specLayout, List.map_append, ih h2, encRecord_eq, List.map_append,
      header_map_val _ _ h1]

/-- C2 (TLV round trip): for a list whose values have at most 65535 bytes each and whose
encoded length is at most 131072, `DecodeFromBinary` on the output of `EncodeToBinary`
returns status 0 and the list itself, whatever the output list held before. -/
theorem DecodeFromBinary_EncodeToBinary (tlvList prior : List TLVItem)
    (hv : ∀ item ∈ tlvList, item.value.length ≤ 65535)
    (hl : GetEncodedLength tlvList ≤ 131072) :
    DecodeFromBinary (EncodeToBinary tlvList) prior = some (0, tlvList) := by
  rw [EncodeToBinary_eq]
  rw [GetEncodedLength_eq, ← encRecords_length] at hl
  have hsz : (encRecords tlvList).length ≤ MAX_TLV_DATA_LENGTH := hl
  have hv2 : ∀ item ∈ tlvList, item.value.length ≤ MAX_TLV_VALUE_LENGTH := by
    intro item hitem
    have := hv item hitem
    have hmax : MAX_TLV_VALUE_LENGTH = 65536 := rfl
    omega
  unfold DecodeFromBinary
  by_cases he : (encRecords tlvList).isEmpty = true
  · simp only [he, if_true, clear]
    cases tlvList with
    | nil => rfl
    | cons item rest =>
      rw [encRecords, encRecord_eq] at he
      simp [header] at he
  · have hgt : ¬ (encRecords tlvList).length > MAX_TLV_DATA_LENGTH := by omega
    simp only [he, hgt, if_false, clear]
    have hn := length_le_specLength tlvList
    rw [← encRecords_length] at hn
    have hfuel : (encRecords tlvList).length
        = ((encRecords tlvList).length - tlvList.length) + tlvList.length := by omega
    have hrun := DecodeLoop_records (encRecords tlvList) hsz tlvList 0 []
      ((encRecords tlvList).length - tlvList.length) [] (by simp) hv2
    rw [← hfuel] at hrun
    rw [hrun, DecodeLoop_end _ _ _ _ (by omega), List.nil_append]
    simp only [Bool.false_eq_true, if_false]

theorem DecodeFromBinary_EncodeToBinary_witness :
    (∀ item ∈ ([⟨1, [0x41, 0x42]⟩, ⟨0xFFFF, []⟩, ⟨1, [0xFF]⟩] : List TLVItem),
      item.value.length ≤ 65535) ∧
    GetEncodedLength [⟨1, [0x41, 0x42]⟩, ⟨0xFFFF, []⟩, ⟨1, [0xFF]⟩] ≤ 131072 ∧
    DecodeFromBinary (EncodeToBinary [⟨1, [0x41, 0x42]⟩, ⟨0xFFFF, []⟩, ⟨1, [0xFF]⟩])
      [⟨7, [0x00]⟩] = some (0, [⟨1, [0x41, 0x42]⟩, ⟨0xFFFF, []⟩, ⟨1, [0xFF]⟩]) :=
  ⟨by decide, by decide,
    DecodeFromBinary_EncodeToBinary [⟨1, [0x41, 0x42]⟩, ⟨0xFFFF, []⟩, ⟨1, [0xFF]⟩]
      [⟨7, [0x00]⟩] (by decide) (by decide)⟩

/-- C3 (length agreement): for every list, the empty one included, the number of bytes
that `EncodeToBinary` returns is `GetEncodedLength`, which is the sum over the items of
`6 + value.length`. -/
theorem EncodeToBinary_length (tlvList : List TLVItem) :
    (EncodeToBinary tlvList).length = GetEncodedLength tlvList ∧
    GetEncodedLength tlvList = (tlvList.map (fun item => 6 + item.value.length)).sum ∧
    (EncodeToBinary []).length = GetEncodedLength [] := by
  refine ⟨?_, ?_, rfl⟩
  · rw [EncodeToBinary_eq, encRecords_length, GetEncodedLength_eq]
  · rw [GetEncodedLength_eq, specLength_eq_sum]

/-- C4 (wire layout): for a list whose values have fewer than `2 ^ 32` bytes each, the
bytes of `EncodeToBinary` are, as numbers, the layout of the specification; the list
`[(1, [0x41, 0x42])]` gives `00 01 00 00 00 02 41 42` and the empty list gives the empty
buffer. -/
theorem EncodeToBinary_layout (tlvList : List TLVItem)
    (h : ∀ item ∈ tlvList, item.value.length < 2 ^ 32) :
    (EncodeToBinary tlvList).map Fin.val = specLayout tlvList ∧
    EncodeToBinary [⟨1, [0x41, 0x42]⟩] = [0x00, 0x01, 0x00, 0x00, 0x00, 0x02, 0x41, 0x42] ∧
    EncodeToBinary [] = [] := by
  refine ⟨?_, by decide, by decide⟩
  rw [EncodeToBinary_eq, encRecords_map_val tlvList h]

theorem EncodeToBinary_layout_witness :
    (∀ item ∈ ([⟨0x1234, [0x41, 0x42]⟩, ⟨2, []⟩] : List TLVItem),
      item.value.length < 2 ^ 32) ∧
    (EncodeToBinary [⟨0x1234, [0x41, 0x42]⟩, ⟨2, []⟩]).map Fin.val
      = specLayout [⟨0x1234, [0x41, 0x42]⟩, ⟨2, []⟩] ∧
    EncodeToBinary [⟨1, [0x41, 0x42]⟩] = [0x00, 0x01, 0x00, 0x00, 0x00, 0x02, 0x41, 0x42] ∧
    EncodeToBinary [] = [] :=
  ⟨by decide, EncodeToBinary_layout [⟨0x1234, [0x41, 0x42]⟩, ⟨2, []⟩] (by decide)⟩


theorem DecodeFromBinary_nil (prior : List TLVItem) :
    DecodeFromBinary [] prior = some (0, []) := rfl

theorem DecodeFromBinary_big (binary : List Byte) (prior : List TLVItem)
    (h : binary.length > MAX_TLV_DATA_LENGTH) :
    DecodeFromBinary binary prior = some (ERR_TLV_DATA_EXCEEDED, []) := by
  have hne : binary.isEmpty = false := by
    cases binary with
    | nil => simp [MAX_TLV_DATA_LENGTH] at h
    | cons b rest => rfl
  simp only [DecodeFromBinary, hne, h, if_true, clear, Bool.false_eq_true, if_false]

theorem DecodeFromBinary_loop (binary : List Byte) (prior : List TLVItem)
    (hne : binary ≠ []) (hsz : binary.length ≤ MAX_TLV_DATA_LENGTH) :
    DecodeFromBinary binary prior = DecodeLoop binary binary.length 0 [] := by
  have he : binary.isEmpty = false := by
    cases binary with
    | nil => exact absurd rfl hne
    | cons b rest => rfl
  have hgt : ¬ binary.length > MAX_TLV_DATA_LENGTH := by omega
  simp only [DecodeFromBinary, he, hgt, clear, Bool.false_eq_true, if_false]

/-- C7 as stated (no partial results on failure) fails: on a buffer that holds the record
of `(1, [0x41, 0x42])` followed by a header that declares one byte more than the buffer
has, `DecodeFromBinary` returns `ERR_TLV_INVALID_LENGTH`, which is not 0, and the output
list holds the first item. -/
theorem DecodeFromBinary_keeps_decoded_items :
    DecodeFromBinary
        [0x00, 0x01, 0x00, 0x00, 0x00, 0x02, 0x41, 0x42, 0x00, 0x02, 0x00, 0x00, 0x00, 0x01]
        []
      = some (ERR_TLV_INVALID_LENGTH, [⟨1, [0x41, 0x42]⟩]) ∧
    ERR_TLV_INVALID_LENGTH ≠ 0 ∧
    ([⟨1, [0x41, 0x42]⟩] : List TLVItem) ≠ [] := by
  decide

/-- C7 as amended: when `DecodeFromBinary` returns a nonzero status, the output list
holds nothing of its prior content; it is empty when the status is
`ERR_TLV_DATA_EXCEEDED`; and when the status is one of the two others, it is the list of
the items decoded before the header that is refused: the buffer is the encoding of the
output list followed by that header, whose declared length either exceeds the bytes that
follow it (`ERR_TLV_INVALID_LENGTH`) or fits and exceeds 65536
(`ERR_TLV_VALUE_TOO_LARGE`). -/
theorem DecodeFromBinary_failure_output (binary : List Byte) (prior : List TLVItem)
    (st : Int) (out : List TLVItem)
    (h : DecodeFromBinary binary prior = some (st, out)) (hst : st ≠ 0) :
    (∀ other : List TLVItem, DecodeFromBinary binary other = some (st, out)) ∧
    (st = ERR_TLV_DATA_EXCEEDED → out = []) ∧
    (st ≠ ERR_TLV_DATA_EXCEEDED →
      ∃ h0 h1 h2 h3 h4 h5 tail,
        binary = EncodeToBinary out ++ h0 :: h1 :: h2 :: h3 :: h4 :: h5 :: tail ∧
        (∀ item ∈ out, item.value.length ≤ MAX_TLV_VALUE_LENGTH) ∧
        ((st = ERR_TLV_INVALID_LENGTH ∧ tail.length < wireLength h2 h3 h4 h5) ∨
         (st = ERR_TLV_VALUE_TOO_LARGE ∧ wireLength h2 h3 h4 h5 ≤ tail.length ∧
            MAX_TLV_VALUE_LENGTH < wireLength h2 h3 h4 h5))) := by
  refine ⟨fun _ => h, ?_, ?_⟩
  · intro hde
    by_cases hbig : binary.length > MAX_TLV_DATA_LENGTH
    · rw [DecodeFromBinary_big binary prior hbig] at h
      simp only [Option.some.injEq, Prod.mk.injEq] at h
      exact h.2.symm
    · by_cases hne : binary = []
      · subst hne
        rw [DecodeFromBinary_nil] at h
        simp only [Option.some.injEq, Prod.mk.injEq] at h
        exact h.2.symm
      · rw [DecodeFromBinary_loop binary prior hne (by omega)] at h
        obtain ⟨st2, items, rest, hrun, _, _, hcase⟩ :=
          DecodeLoop_spec binary (by omega) binary.length 0 [] (by omega)
        rw [hrun] at h
        simp only [Option.some.injEq, Prod.mk.injEq] at h
        obtain ⟨h1, _⟩ := h
        subst h1
        rcases hcase with ⟨hz, _⟩ | ⟨_, _, _, _, _, _, _, _, ⟨hz, _⟩ | ⟨hz, _⟩⟩
        · exact absurd hz hst
        · rw [hz] at hde; exact absurd hde (by decide)
        · rw [hz] at hde; exact absurd hde (by decide)
  · intro hde
    by_cases hbig : binary.length > MAX_TLV_DATA_LENGTH
    · rw [DecodeFromBinary_big binary prior hbig] at h
      simp only [Option.some.injEq, Prod.mk.injEq] at h
      exact absurd h.1.symm hde
    · by_cases hne : binary = []
      · subst hne
        rw [DecodeFromBinary_nil] at h
        simp only [Option.some.injEq, Prod.mk.injEq] at h
        exact absurd h.1.symm hst
      · rw [DecodeFromBinary_loop binary prior hne (by omega)] at h
        obtain ⟨st2, items, rest, hrun, hdrop, hall, hcase⟩ :=
          DecodeLoop_spec binary (by omega) binary.length 0 [] (by omega)
        rw [hrun] at h
        simp only [Option.some.injEq, Prod.mk.injEq, List.nil_append] at h
        obtain ⟨h1, h2⟩ := h
        subst h1 h2
        rw [List.drop_zero] at hdrop
        rcases hcase with ⟨hz, _⟩ | ⟨h0, h1, h2, h3, h4, h5, tail, hrest, hcase⟩
        · exact absurd hz hst
        · refine ⟨h0, h1, h2, h3, h4, h5, tail, ?_, hall, hcase⟩
          rw [EncodeToBinary_eq, hdrop, hrest]

theorem DecodeFromBinary_failure_output_witness :
    DecodeFromBinary
        [0x00, 0x01, 0x00, 0x00, 0x00, 0x02, 0x41, 0x42, 0x00, 0x02, 0x00, 0x00, 0x00, 0x01]
        [⟨7, [0x00]⟩]
      = some (ERR_TLV_INVALID_LENGTH, [⟨1, [0x41, 0x42]⟩]) ∧
    ERR_TLV_INVALID_LENGTH ≠ 0 ∧
    ((∀ other : List TLVItem, DecodeFromBinary
        [0x00, 0x01, 0x00, 0x00, 0x00, 0x02, 0x41, 0x42, 0x00, 0x02, 0x00, 0x00, 0x00, 0x01]
        other
      = some (ERR_TLV_INVALID_LENGTH, [⟨1, [0x41, 0x42]⟩])) ∧
    (ERR_TLV_INVALID_LENGTH = ERR_TLV_DATA_EXCEEDED → ([⟨1, [0x41, 0x42]⟩] : List TLVItem) = []) ∧
    (ERR_TLV_INVALID_LENGTH ≠ ERR_TLV_DATA_EXCEEDED →
      ∃ h0 h1 h2 h3 h4 h5 tail,
        [0x00, 0x01, 0x00, 0x00, 0x00, 0x02, 0x41, 0x42, 0x00, 0x02, 0x00, 0x00, 0x00, 0x01]
          = EncodeToBinary [⟨1, [0x41, 0x42]⟩] ++ h0 :: h1 :: h2 :: h3 :: h4 :: h5 :: tail ∧
        (∀ item ∈ ([⟨1, [0x41, 0x42]⟩] : List TLVItem),
          item.value.length ≤ MAX_TLV_VALUE_LENGTH) ∧
        ((ERR_TLV_INVALID_LENGTH = ERR_TLV_INVALID_LENGTH ∧
            tail.length < wireLength h2 h3 h4 h5) ∨
         (ERR_TLV_INVALID_LENGTH = ERR_TLV_VALUE_TOO_LARGE ∧
            wireLength h2 h3 h4 h5 ≤ tail.length ∧
            MAX_TLV_VALUE_LENGTH < wireLength h2 h3 h4 h5)))) :=
  ⟨by decide, by decide,
    DecodeFromBinary_failure_output
      [0x00, 0x01, 0x00, 0x00, 0x00, 0x02, 0x41, 0x42, 0x00, 0x02, 0x00, 0x00, 0x00, 0x01]
      [⟨7, [0x00]⟩] ERR_TLV_INVALID_LENGTH [⟨1, [0x41, 0x42]⟩] (by decide) (by decide)⟩


/-- C8 as stated (a declared length of 70000 gives `ERR_TLV_VALUE_TOO_LARGE` whatever
follows the header) fails: on the six bytes `00 01 00 01 11 70`, a whole header whose
length field is 70000 with nothing after it, `DecodeFromBinary` returns
`ERR_TLV_INVALID_LENGTH`. -/
theorem DecodeFromBinary_70000_short :
    wireLength 0x00 0x01 0x11 0x70 = 70000 ∧
    ([0x00, 0x01, 0x00, 0x01, 0x11, 0x70] : List Byte).length ≤ 131072 ∧
    DecodeFromBinary [0x00, 0x01, 0x00, 0x01, 0x11, 0x70] []
      = some (ERR_TLV_INVALID_LENGTH, []) ∧
    ERR_TLV_INVALID_LENGTH ≠ ERR_TLV_VALUE_TOO_LARGE := by
  decide

/-- C8 as amended: on a buffer of at most 131072 bytes that begins with a whole header
whose length field is 70000, `DecodeFromBinary` returns `ERR_TLV_VALUE_TOO_LARGE` when at
least 70000 bytes follow the header and `ERR_TLV_INVALID_LENGTH` when fewer follow; the
output list is empty in both cases. -/
theorem DecodeFromBinary_70000 (t0 t1 : Byte) (rest : List Byte) (prior : List TLVItem)
    (hsz : ([t0, t1, 0x00, 0x01, 0x11, 0x70] ++ rest).length ≤ 131072) :
    wireLength 0x00 0x01 0x11 0x70 = 70000 ∧
    (70000 ≤ rest.length →
      DecodeFromBinary ([t0, t1, 0x00, 0x01, 0x11, 0x70] ++ rest) prior
        = some (ERR_TLV_VALUE_TOO_LARGE, [])) ∧
    (rest.length < 70000 →
      DecodeFromBinary ([t0, t1, 0x00, 0x01, 0x11, 0x70] ++ rest) prior
        = some (ERR_TLV_INVALID_LENGTH, [])) := by
  have hw : wireLength 0x00 0x01 0x11 0x70 = 70000 := by decide
  have hmax : MAX_TLV_VALUE_LENGTH = 65536 := rfl
  have hlen : ([t0, t1, 0x00, 0x01, 0x11, 0x70] ++ rest).length = (rest.length + 5) + 1 := by
    simp only [List.length_append, List.length_cons, List.length_nil]; omega
  have hrun : DecodeFromBinary ([t0, t1, 0x00, 0x01, 0x11, 0x70] ++ rest) prior
      = if rest.length < 70000 then some (ERR_TLV_INVALID_LENGTH, [])
        else some (ERR_TLV_VALUE_TOO_LARGE, []) := by
    rw [DecodeFromBinary_loop _ prior (by simp) hsz, hlen,
      DecodeLoop_step _ hsz (rest.length + 5) 0 [] t0 t1 0x00 0x01 0x11 0x70 rest rfl, hw]
    by_cases c : rest.length < 70000
    · rw [if_pos c, if_pos c]
    · rw [if_neg c, if_neg c, if_pos (by omega)]
  refine ⟨hw, ?_, ?_⟩
  · intro h; rw [hrun, if_neg (by omega)]
  · intro h; rw [hrun, if_pos h]

theorem DecodeFromBinary_70000_witness :
    ([0xAB, 0xCD, 0x00, 0x01, 0x11, 0x70] ++ List.replicate 70000 (0x5A : Byte)).length
      ≤ 131072 ∧
    wireLength 0x00 0x01 0x11 0x70 = 70000 ∧
    (70000 ≤ (List.replicate 70000 (0x5A : Byte)).length →
      DecodeFromBinary ([0xAB, 0xCD, 0x00, 0x01, 0x11, 0x70] ++ List.replicate 70000 0x5A) []
        = some (ERR_TLV_VALUE_TOO_LARGE, [])) ∧
    ((List.replicate 70000 (0x5A : Byte)).length < 70000 →
      DecodeFromBinary ([0xAB, 0xCD, 0x00, 0x01, 0x11, 0x70] ++ List.replicate 70000 0x5A) []
        = some (ERR_TLV_INVALID_LENGTH, [])) :=
  ⟨by rw [List.length_append, List.length_replicate]; decide,
    DecodeFromBinary_70000 0xAB 0xCD (List.replicate 70000 0x5A) []
      (by rw [List.length_append, List.length_replicate]; decide)⟩

/-- C9 (truncation): for a list whose values have at most 65536 bytes each, a type `t`, a
declared length `n` (a value of the 4-byte length field) and a payload `p` shorter than
`n`, if the buffer made of the encoding of the list, the header of `(t, n)` and `p` has
at most 131072 bytes, `DecodeFromBinary` returns `ERR_TLV_INVALID_LENGTH` on it (the
output list then holds the items of the list), hence not status 0 with any output list. -/
theorem DecodeFromBinary_truncated (tlvList prior : List TLVItem) (t : Fin 65536) (n : Nat)
    (p : List Byte) (hv : ∀ item ∈ tlvList, item.value.length ≤ 65536)
    (hn : n < 2 ^ 32) (hp : p.length < n)
    (hsz : (EncodeToBinary tlvList ++ header t n ++ p).length ≤ 131072) :
    DecodeFromBinary (EncodeToBinary tlvList ++ header t n ++ p) prior
      = some (ERR_TLV_INVALID_LENGTH, tlvList) ∧
    ∀ out, DecodeFromBinary (EncodeToBinary tlvList ++ header t n ++ p) prior
      ≠ some (0, out) := by
  have hrun : DecodeFromBinary (EncodeToBinary tlvList ++ header t n ++ p) prior
      = some (ERR_TLV_INVALID_LENGTH, tlvList) := by
    rw [EncodeToBinary_eq] at hsz ⊢
    have hsz2 : (encRecords tlvList ++ header t n ++ p).length ≤ MAX_TLV_DATA_LENGTH := hsz
    have hlen : (encRecords tlvList ++ header t n ++ p).length
        = (encRecords tlvList).length + 6 + p.length := by
      simp only [List.length_append, header_length]
    have hnl := length_le_specLength tlvList
    rw [← encRecords_length] at hnl
    have hne : encRecords tlvList ++ header t n ++ p ≠ [] := by
      intro h0
      have := congrArg List.length h0
      rw [hlen] at this
      simp at this
    have hfuel : (encRecords tlvList ++ header t n ++ p).length
        = (((encRecords tlvList).length + 5 + p.length - tlvList.length) + 1)
          + tlvList.length := by omega
    have hdrop : (encRecords tlvList ++ header t n ++ p).drop 0
        = encRecords tlvList ++ (header t n ++ p) := by
      rw [List.drop_zero, List.append_assoc]
    rw [DecodeFromBinary_loop _ prior hne hsz2, hfuel,
      DecodeLoop_records _ hsz2 tlvList 0 [] _ (header t n ++ p) hdrop hv]
    have hdrop2 := drop_of_append _ _ _ 0 hdrop
    simp only [header, List.cons_append, List.nil_append] at hdrop2
    rw [DecodeLoop_step _ hsz2 _ _ _ _ _ _ _ _ _ p hdrop2, wireLength_header n hn, if_pos hp,
      List.nil_append]
  refine ⟨hrun, ?_⟩
  intro out hout
  rw [hrun] at hout
  simp only [Option.some.injEq, Prod.mk.injEq] at hout
  exact absurd hout.1 (by decide)

theorem DecodeFromBinary_truncated_witness :
    (∀ item ∈ ([⟨1, [0x41, 0x42]⟩] : List TLVItem), item.value.length ≤ 65536) ∧
    3 < 2 ^ 32 ∧ ([0x43, 0x44] : List Byte).length < 3 ∧
    (EncodeToBinary [⟨1, [0x41, 0x42]⟩] ++ header 2 3 ++ [0x43, 0x44]).length ≤ 131072 ∧
    DecodeFromBinary (EncodeToBinary [⟨1, [0x41, 0x42]⟩] ++ header 2 3 ++ [0x43, 0x44])
      [] = some (ERR_TLV_INVALID_LENGTH, [⟨1, [0x41, 0x42]⟩]) ∧
    ∀ out, DecodeFromBinary (EncodeToBinary [⟨1, [0x41, 0x42]⟩] ++ header 2 3 ++ [0x43, 0x44])
      [] ≠ some (0, out) :=
  ⟨by decide, by decide, by decide, by decide,
    DecodeFromBinary_truncated [⟨1, [0x41, 0x42]⟩] [] 2 3 [0x43, 0x44] (by decide)
      (by decide) (by decide) (by decide)⟩

/-- C10 (oversized input): on a buffer of more than 131072 bytes `DecodeFromBinary`
returns `ERR_TLV_DATA_EXCEEDED` with an empty output list, whatever the bytes and the
prior content of the list; on a buffer of at most 131072 bytes it returns, and with a
status other than `ERR_TLV_DATA_EXCEEDED`. -/
theorem DecodeFromBinary_data_exceeded (binary : List Byte) (prior : List TLVItem) :
    (131072 < binary.length →
      DecodeFromBinary binary prior = some (ERR_TLV_DATA_EXCEEDED, [])) ∧
    (binary.length ≤ 131072 →
      ∃ st out, DecodeFromBinary binary prior = some (st, out) ∧
        st ≠ ERR_TLV_DATA_EXCEEDED) := by
  refine ⟨fun h => DecodeFromBinary_big binary prior h, ?_⟩
  intro hsz
  by_cases hne : binary = []
  · subst hne
    exact ⟨0, [], rfl, by decide⟩
  · obtain ⟨st, items, rest, hrun, _, _, hcase⟩ :=
      DecodeLoop_spec binary hsz binary.length 0 [] (by omega)
    refine ⟨st, [] ++ items, ?_, ?_⟩
    · rw [DecodeFromBinary_loop binary prior hne hsz, hrun]
    · rcases hcase with ⟨hz, _⟩ | ⟨_, _, _, _, _, _, _, _, ⟨hz, _⟩ | ⟨hz, _⟩⟩ <;>
        (rw [hz]; decide)

theorem DecodeFromBinary_data_exceeded_witness :
    (131072 < (List.replicate 131073 (0x00 : Byte)).length ∧
      DecodeFromBinary (List.replicate 131073 0x00) [⟨7, [0x00]⟩]
        = some (ERR_TLV_DATA_EXCEEDED, [])) ∧
    ((List.replicate 131072 (0x00 : Byte)).length ≤ 131072 ∧
      ∃ st out, DecodeFromBinary (List.replicate 131072 0x00) [⟨7, [0x00]⟩] = some (st, out) ∧
        st ≠ ERR_TLV_DATA_EXCEEDED) :=
  ⟨⟨by rw [List.length_replicate]; decide,
      (DecodeFromBinary_data_exceeded (List.replicate 131073 0x00) [⟨7, [0x00]⟩]).1
        (by rw [List.length_replicate]; decide)⟩,
    ⟨Nat.le_of_eq (List.length_replicate 131072 (0x00 : Byte)),
      (DecodeFromBinary_data_exceeded (List.replicate 131072 0x00) [⟨7, [0x00]⟩]).2
        (Nat.le_of_eq (List.length_replicate 131072 (0x00 : Byte)))⟩⟩

/-- What a return of `DecodeFromBinary` with status 0 says of the buffer: it is the
records of the output list followed by fewer than six bytes. -/
theorem DecodeFromBinary_ok_spec (binary : List Byte) (prior out : List TLVItem)
    (h : DecodeFromBinary binary prior = some (0, out)) :
    ∃ rest, binary = encRecords out ++ rest ∧ rest.length < 6 ∧
      (∀ item ∈ out, item.value.length ≤ MAX_TLV_VALUE_LENGTH) ∧
      binary.length ≤ MAX_TLV_DATA_LENGTH := by
  by_cases hbig : binary.length > MAX_TLV_DATA_LENGTH
  · rw [DecodeFromBinary_big binary prior hbig] at h
    simp only [Option.some.injEq, Prod.mk.injEq] at h
    exact absurd h.1 (by decide)
  · by_cases hne : binary = []
    · subst hne
      rw [DecodeFromBinary_nil] at h
      simp only [Option.some.injEq, Prod.mk.injEq] at h
      obtain ⟨_, h2⟩ := h
      subst h2
      exact ⟨[], rfl, by decide, by simp, by decide⟩
    · rw [DecodeFromBinary_loop binary prior hne (by omega)] at h
      obtain ⟨st, items, rest, hrun, hdrop, hall, hcase⟩ :=
        DecodeLoop_spec binary (by omega) binary.length 0 [] (by omega)
      rw [hrun] at h
      simp only [Option.some.injEq, Prod.mk.injEq, List.nil_append] at h
      obtain ⟨h1, h2⟩ := h
      subst h1 h2
      rw [List.drop_zero] at hdrop
      rcases hcase with ⟨_, hlt⟩ | ⟨_, _, _, _, _, _, _, _, ⟨hz, _⟩ | ⟨hz, _⟩⟩
      · exact ⟨rest, hdrop, hlt, hall, by omega⟩
      · exact absurd hz (by decide)
      · exact absurd hz (by decide)

theorem FindTLVByType_none (tlvList : List TLVItem) (type : Fin 65536) (value : List Byte)
    (h : ∀ item ∈ tlvList, item.type ≠ type) :
    FindTLVByType tlvList type value = (false, value) := by
  induction tlvList with
  | nil => rfl
  | cons item rest ih =>
    rw [FindTLVByType, if_neg (h item (List.mem_cons_self _ _))]
    exact ih (fun it hit => h it (List.mem_cons_of_mem _ hit))

theorem FindTLVByType_first (pre post : List TLVItem) (item : TLVItem) (type : Fin 65536)
    (value : List Byte) (hpre : ∀ x ∈ pre, x.type ≠ type) (hitem : item.type = type) :
    FindTLVByType (pre ++ item :: post) type value = (true, item.value) := by
  induction pre with
  | nil => rw [List.nil_append, FindTLVByType, if_pos hitem]
  | cons x pre ih =>
    rw [List.cons_append, FindTLVByType, if_neg (hpre x (List.mem_cons_self _ _))]
    exact ih (fun y hy => hpre y (List.mem_cons_of_mem _ hy))

theorem first_match_split (tlvList : List TLVItem) (type : Fin 65536)
    (h : ∃ item ∈ tlvList, item.type = type) :
    ∃ pre item post, tlvList = pre ++ item :: post ∧ (∀ x ∈ pre, x.type ≠ type) ∧
      item.type = type := by
  induction tlvList with
  | nil => obtain ⟨item, hm, _⟩ := h; exact absurd hm (List.not_mem_nil _)
  | cons x rest ih =>
    by_cases hx : x.type = type
    · exact ⟨[], x, rest, rfl, by simp, hx⟩
    · obtain ⟨item, hm, ht⟩ := h
      have hrest : ∃ item ∈ rest, item.type = type := by
        rcases List.mem_cons.mp hm with rfl | hm2
        · exact absurd ht hx
        · exact ⟨item, hm2, ht⟩
      obtain ⟨pre, it, post, hsplit, hpre, hit⟩ := ih hrest
      refine ⟨x :: pre, it, post, by rw [hsplit, List.cons_append], ?_, hit⟩
      intro y hy
      rcases List.mem_cons.mp hy with rfl | hy2
      · exact hx
      · exact hpre y hy2

/-- C13 (`FindTLVByType`, first match): the flag is true exactly when some item of the
list has the type; in that case the output value is the value of the first such item
(no item before it has the type, whatever follows it); otherwise the output value keeps
its prior content. The list is a read-only argument and no part of the result. -/
theorem FindTLVByType_first_match (tlvList : List TLVItem) (type : Fin 65536)
    (value : List Byte) :
    ((FindTLVByType tlvList type value).1 = true ↔ ∃ item ∈ tlvList, item.type = type) ∧
    ((∃ item ∈ tlvList, item.type = type) →
      ∃ pre item post, tlvList = pre ++ item :: post ∧ (∀ x ∈ pre, x.type ≠ type) ∧
        item.type = type ∧ FindTLVByType tlvList type value = (true, item.value)) ∧
    ((¬ ∃ item ∈ tlvList, item.type = type) →
      FindTLVByType tlvList type value = (false, value)) := by
  have hyes : (∃ item ∈ tlvList, item.type = type) →
      ∃ pre item post, tlvList = pre ++ item :: post ∧ (∀ x ∈ pre, x.type ≠ type) ∧
        item.type = type ∧ FindTLVByType tlvList type value = (true, item.value) := by
    intro h
    obtain ⟨pre, item, post, hsplit, hpre, hit⟩ := first_match_split tlvList type h
    refine ⟨pre, item, post, hsplit, hpre, hit, ?_⟩
    rw [hsplit]
    exact FindTLVByType_first pre post item type value hpre hit
  have hno : (¬ ∃ item ∈ tlvList, item.type = type) →
      FindTLVByType tlvList type value = (false, value) := by
    intro h
    exact FindTLVByType_none tlvList type value (fun item hm ht => h ⟨item, hm, ht⟩)
  refine ⟨⟨?_, ?_⟩, hyes, hno⟩
  · intro hflag
    by_contra hcon
    rw [hno hcon] at hflag
    exact Bool.noConfusion hflag
  · intro h
    obtain ⟨_, _, _, _, _, _, hres⟩ := hyes h
    rw [hres]

theorem FindTLVByType_first_match_witness :
    ((∃ item ∈ ([⟨2, [0x01]⟩, ⟨7, [0x02]⟩, ⟨7, [0x03]⟩] : List TLVItem), item.type = 7) ∧
      ∃ pre item post, ([⟨2, [0x01]⟩, ⟨7, [0x02]⟩, ⟨7, [0x03]⟩] : List TLVItem)
          = pre ++ item :: post ∧ (∀ x ∈ pre, x.type ≠ 7) ∧ item.type = 7 ∧
        FindTLVByType [⟨2, [0x01]⟩, ⟨7, [0x02]⟩, ⟨7, [0x03]⟩] 7 [0xEE] = (true, item.value)) ∧
    ((¬ ∃ item ∈ ([⟨2, [0x01]⟩, ⟨7, [0x02]⟩, ⟨7, [0x03]⟩] : List TLVItem), item.type = 9) ∧
      FindTLVByType [⟨2, [0x01]⟩, ⟨7, [0x02]⟩, ⟨7, [0x03]⟩] 9 [0xEE] = (false, [0xEE])) :=
  ⟨⟨by decide,
      (FindTLVByType_first_match [⟨2, [0x01]⟩, ⟨7, [0x02]⟩, ⟨7, [0x03]⟩] 7 [0xEE]).2.1
        (by decide)⟩,
    ⟨by decide,
      (FindTLVByType_first_match [⟨2, [0x01]⟩, ⟨7, [0x02]⟩, ⟨7, [0x03]⟩] 9 [0xEE]).2.2
        (by decide)⟩⟩

/-- C14 (trailing bytes): for a list whose values have at most 65536 bytes each and a
sequence `t` of 1 to 5 bytes, if the encoding of the list followed by `t` has at most
131072 bytes, `DecodeFromBinary` returns status 0 and the list on it. -/
theorem DecodeFromBinary_trailing (tlvList prior : List TLVItem) (t : List Byte)
    (hv : ∀ item ∈ tlvList, item.value.length ≤ 65536)
    (ht1 : 1 ≤ t.length) (ht5 : t.length ≤ 5)
    (hsz : (EncodeToBinary tlvList ++ t).length ≤ 131072) :
    DecodeFromBinary (EncodeToBinary tlvList ++ t) prior = some (0, tlvList) := by
  rw [EncodeToBinary_eq] at hsz ⊢
  have hsz2 : (encRecords tlvList ++ t).length ≤ MAX_TLV_DATA_LENGTH := hsz
  have hlen : (encRecords tlvList ++ t).length = (encRecords tlvList).length + t.length :=
    List.length_append _ _
  have hnl := length_le_specLength tlvList
  rw [← encRecords_length] at hnl
  have hne : encRecords tlvList ++ t ≠ [] := by
    intro h0
    have := congrArg List.length h0
    rw [hlen] at this
    simp only [List.length_nil] at this
    omega
  have hfuel : (encRecords tlvList ++ t).length
      = ((encRecords tlvList).length + t.length - tlvList.length) + tlvList.length := by
    omega
  rw [DecodeFromBinary_loop _ prior hne hsz2, hfuel,
    DecodeLoop_records _ hsz2 tlvList 0 [] _ t (List.drop_zero _) hv,
    DecodeLoop_end _ _ _ _ (by omega), List.nil_append]

theorem DecodeFromBinary_trailing_witness :
    (∀ item ∈ ([⟨1, [0x41, 0x42]⟩, ⟨2, []⟩] : List TLVItem), item.value.length ≤ 65536) ∧
    1 ≤ ([0x00, 0x03, 0x00, 0x00, 0x00] : List Byte).length ∧
    ([0x00, 0x03, 0x00, 0x00, 0x00] : List Byte).length ≤ 5 ∧
    (EncodeToBinary [⟨1, [0x41, 0x42]⟩, ⟨2, []⟩] ++ [0x00, 0x03, 0x00, 0x00, 0x00]).length
      ≤ 131072 ∧
    DecodeFromBinary (EncodeToBinary [⟨1, [0x41, 0x42]⟩, ⟨2, []⟩]
      ++ [0x00, 0x03, 0x00, 0x00, 0x00]) [⟨7, [0x00]⟩]
      = some (0, [⟨1, [0x41, 0x42]⟩, ⟨2, []⟩]) :=
  ⟨by decide, by decide, by decide, by decide,
    DecodeFromBinary_trailing [⟨1, [0x41, 0x42]⟩, ⟨2, []⟩] [⟨7, [0x00]⟩]
      [0x00, 0x03, 0x00, 0x00, 0x00] (by decide) (by decide) (by decide) (by decide)⟩

/-- C15 as stated (decoded values have at most 65535 bytes) fails: on the header
`00 01 00 01 00 00`, which declares 65536 bytes, followed by 65536 bytes,
`DecodeFromBinary` returns status 0 and one item whose value has 65536 bytes. -/
theorem DecodeFromBinary_value_65536 :
    DecodeFromBinary
        ([0x00, 0x01, 0x00, 0x01, 0x00, 0x00] ++ List.replicate 65536 (0x5A : Byte)) []
      = some (0, [⟨1, List.replicate 65536 (0x5A : Byte)⟩]) ∧
    (List.replicate 65536 (0x5A : Byte)).length = 65536 ∧
    ¬ (65536 ≤ 65535) := by
  have hlen : ([0x00, 0x01, 0x00, 0x01, 0x00, 0x00] ++ List.replicate 65536 (0x5A : Byte)).length
      = 65541 + 1 := by
    rw [List.length_append, List.length_replicate]; rfl
  have hsz : ([0x00, 0x01, 0x00, 0x01, 0x00, 0x00] ++ List.replicate 65536 (0x5A : Byte)).length
      ≤ MAX_TLV_DATA_LENGTH := by
    rw [hlen]; decide
  have hne : [0x00, 0x01, 0x00, 0x01, 0x00, 0x00] ++ List.replicate 65536 (0x5A : Byte) ≠ [] :=
    fun h => List.noConfusion h
  have hw : wireLength 0x00 0x01 0x00 0x00 = 65536 := by decide
  have ht : wireType 0x00 0x01 = 1 := by decide
  have hrl : (List.replicate 65536 (0x5A : Byte)).length = 65536 := List.length_replicate _ _
  refine ⟨?_, hrl, by decide⟩
  rw [DecodeFromBinary_loop _ [] hne hsz, hlen,
    DecodeLoop_step _ hsz 65541 0 [] 0x00 0x01 0x00 0x01 0x00 0x00
      (List.replicate 65536 (0x5A : Byte)) rfl, hw, ht, hrl,
    if_neg (by decide), if_neg (by decide),
    DecodeLoop_end _ _ _ _ (by rw [hlen]; decide),
    List.take_of_length_le (Nat.le_of_eq hrl)]
  rfl

/-- C15 as amended: on every buffer on which `DecodeFromBinary` returns status 0, every
item of the output list has a value of at most 65536 bytes (`MAX_TLV_VALUE_LENGTH`). -/
theorem DecodeFromBinary_value_cap (binary : List Byte) (prior out : List TLVItem)
    (h : DecodeFromBinary binary prior = some (0, out)) :
    ∀ item ∈ out, item.value.length ≤ 65536 := by
  obtain ⟨_, _, _, hall, _⟩ := DecodeFromBinary_ok_spec binary prior out h
  exact hall

theorem DecodeFromBinary_value_cap_witness :
    DecodeFromBinary [0x00, 0x01, 0x00, 0x00, 0x00, 0x02, 0x41, 0x42, 0x00] [⟨7, [0x00]⟩]
      = some (0, [⟨1, [0x41, 0x42]⟩]) ∧
    ∀ item ∈ ([⟨1, [0x41, 0x42]⟩] : List TLVItem), item.value.length ≤ 65536 :=
  ⟨by decide,
    DecodeFromBinary_value_cap [0x00, 0x01, 0x00, 0x00, 0x00, 0x02, 0x41, 0x42, 0x00]
      [⟨7, [0x00]⟩] [⟨1, [0x41, 0x42]⟩] (by decide)⟩

/-- C20 (re-encoding a decoded buffer): when `DecodeFromBinary` returns status 0 with
the output list `out`, the buffer is `EncodeToBinary out` followed by fewer than six
bytes; hence `GetEncodedLength out` is at most the length of the buffer, which is at
most 131072, and when no byte is left over `EncodeToBinary out` is the buffer. -/
theorem DecodeFromBinary_reencode (binary : List Byte) (prior out : List TLVItem)
    (h : DecodeFromBinary binary prior = some (0, out)) :
    ∃ rest, binary = EncodeToBinary out ++ rest ∧ rest.length < 6 ∧
      GetEncodedLength out ≤ binary.length ∧ binary.length ≤ 131072 ∧
      (rest = [] → EncodeToBinary out = binary) := by
  obtain ⟨rest, hbin, hrest, _, hsz⟩ := DecodeFromBinary_ok_spec binary prior out h
  refine ⟨rest, ?_, hrest, ?_, hsz, ?_⟩
  · rw [EncodeToBinary_eq]; exact hbin
  · rw [GetEncodedLength_eq, ← encRecords_length]
    have := congrArg List.length hbin
    rw [List.length_append] at this
    omega
  · intro hnil
    rw [EncodeToBinary_eq, hbin, hnil, List.append_nil]

theorem DecodeFromBinary_reencode_witness :
    DecodeFromBinary [0x00, 0x01, 0x00, 0x00, 0x00, 0x02, 0x41, 0x42, 0x00] [⟨7, [0x00]⟩]
      = some (0, [⟨1, [0x41, 0x42]⟩]) ∧
    ∃ rest, [0x00, 0x01, 0x00, 0x00, 0x00, 0x02, 0x41, 0x42, 0x00]
        = EncodeToBinary [⟨1, [0x41, 0x42]⟩] ++ rest ∧ rest.length < 6 ∧
      GetEncodedLength [⟨1, [0x41, 0x42]⟩]
        ≤ ([0x00, 0x01, 0x00, 0x00, 0x00, 0x02, 0x41, 0x42, 0x00] : List Byte).length ∧
      ([0x00, 0x01, 0x00, 0x00, 0x00, 0x02, 0x41, 0x42, 0x00] : List Byte).length ≤ 131072 ∧
      (rest = [] → EncodeToBinary [⟨1, [0x41, 0x42]⟩]
        = [0x00, 0x01, 0x00, 0x00, 0x00, 0x02, 0x41, 0x42, 0x00]) :=
  ⟨by decide,
    DecodeFromBinary_reencode [0x00, 0x01, 0x00, 0x00, 0x00, 0x02, 0x41, 0x42, 0x00]
      [⟨7, [0x00]⟩] [⟨1, [0x41, 0x42]⟩] (by decide)⟩

end DHTLVUtils

end OHOS.DistributedHardware
